import Mathlib

/-!
Verification of the `spdx-expression` Rust crate (doubleopen-project/spdx-expression)
against its natural-language specification.

The source is shallowly embedded over `List Char`:

* `src/parser.rs`  — the final precedence-climbing parser (`Expression::parse`,
  also exposed as `ExpressionVariant::parse` in `src/expression_variant.rs`,
  which runs the identical `expr` combinator);
* `src/expression_variant.rs` — the `Display` implementation (`render` below);
* `src/parse.rs` — the historical `spdx_expression` grammar used by
  `SPDXExpression::parse` in `src/expression.rs`;
* `src/expression.rs` — the `SPDXExpression` facade and its `licenses` method.

The nom combinators are modelled faithfully, including the distinction between
`Err::Error` and `Err::Incomplete`: `parser.rs` imports
`nom::character::streaming::char`, so `char(':')` at end of input yields
`Incomplete`, which `alt`/`opt`/`delimited` propagate and on which
`.finish()` panics.  Rust's `char::is_alphanumeric` is Unicode-aware; the model
uses ASCII alphanumerics (`Char.isAlphanum`), which agrees on every ASCII input.

The mutually recursive grammar functions take an explicit fuel argument; fuel
exhaustion is reported as the distinguished outcome `PRes.fuelOut` (in
`parse.rs` the recursion is genuinely unbounded on some inputs, where the Rust
code recurses without limit).
-/

namespace Spdx

/-- Result of running a nom parser, mirroring `IResult`:
`ok rest val` is `Ok((rest, val))`, `err` is `Err::Error`, `incomplete` is
`Err::Incomplete`, and `fuelOut` marks exhaustion of the model's fuel
(the Rust code would keep recursing). `Err::Failure` never arises in this
crate (no `cut`-style combinators are used). -/
inductive PRes (α : Type) where
  | ok (rest : List Char) (val : α)
  | err
  | incomplete
  | fuelOut
deriving DecidableEq, Repr

namespace PRes

/-- Sequence two parser steps, threading the remaining input, propagating
`err`, `incomplete` and `fuelOut` exactly as nom sequencing combinators do. -/
def bind {α β : Type} : PRes α → (List Char → α → PRes β) → PRes β
  | .ok rest v, f => f rest v
  | .err, _ => .err
  | .incomplete, _ => .incomplete
  | .fuelOut, _ => .fuelOut

/-- Keep the remaining input and value but replace the value (nom's `map`). -/
def mapv {α β : Type} (f : α → β) : PRes α → PRes β
  | .ok rest v => .ok rest (f v)
  | .err => .err
  | .incomplete => .incomplete
  | .fuelOut => .fuelOut

end PRes

/-- Ordered choice as in nom's `alt`: the second branch is tried only on
`Err::Error`; `Ok`, `Incomplete` and fuel exhaustion short-circuit. -/
def altP {α : Type} (r : PRes α) (s : Unit → PRes α) : PRes α :=
  match r with
  | .err => s ()
  | r => r

/-- Model of nom's `opt`: a plain `Error` is turned into `none` without
consuming input; `Incomplete` (and fuel exhaustion) propagate. -/
def optP {α : Type} (i : List Char) (r : PRes α) : PRes (Option α) :=
  match r with
  | .ok rest v => .ok rest (some v)
  | .err => .ok i none
  | .incomplete => .incomplete
  | .fuelOut => .fuelOut

/-- Model of nom's `complete`, which converts `Incomplete` into `Error`. -/
def completeP {α : Type} (r : PRes α) : PRes α :=
  match r with
  | .incomplete => .err
  | r => r

/-- Characters matched by nom's `multispace0`/`multispace1`:
space, tab, carriage return and line feed. -/
def isMultispace (c : Char) : Bool :=
  c = ' ' || c = '\t' || c = '\n' || c = '\r'

/-- Characters matched by nom's `space1`: space and tab only
(used by `parse.rs`'s `with_expression`). -/
def isSpaceTab (c : Char) : Bool :=
  c = ' ' || c = '\t'

/-- Model of `multispace0`: drop leading whitespace, never fails. -/
def multispace0 (i : List Char) : List Char :=
  i.dropWhile isMultispace

/-- Model of `multispace1`: requires at least one whitespace character. -/
def multispace1 (i : List Char) : PRes Unit :=
  match i with
  | [] => .err
  | c :: _ => if isMultispace c then .ok (i.dropWhile isMultispace) () else .err

/-- Model of `space1` from `parse.rs` (space and tab only). -/
def space1 (i : List Char) : PRes Unit :=
  match i with
  | [] => .err
  | c :: _ => if isSpaceTab c then .ok (i.dropWhile isSpaceTab) () else .err

/-- Model of the complete `tag` combinator: match an exact literal. -/
def tagP (t : List Char) (i : List Char) : PRes (List Char) :=
  if t.isPrefixOf i then .ok (i.drop t.length) t else .err

/-- Case-insensitive character comparison used by `tag_no_case`. -/
def ciChar (a b : Char) : Bool := a.toLower = b.toLower

/-- Model of the complete `tag_no_case` combinator. -/
def tagNoCase (t : List Char) (i : List Char) : PRes (List Char) :=
  if t.length ≤ i.length ∧ (List.zip t (i.take t.length)).all
      (fun p => ciChar p.1 p.2) then
    .ok (i.drop t.length) (i.take t.length)
  else .err

/-- Model of `nom::character::streaming::char`: on empty input it reports
`Incomplete` (this is the variant `parser.rs` and `parse.rs` import). -/
def charStreaming (c : Char) (i : List Char) : PRes Char :=
  match i with
  | [] => .incomplete
  | x :: xs => if x = c then .ok xs c else .err

/-- Model of the complete `take_while1`. -/
def takeWhile1 (p : Char → Bool) (i : List Char) : PRes (List Char) :=
  let w := i.takeWhile p
  if w.isEmpty then .err else .ok (i.drop w.length) w

/-- Identifier characters per `idstring` in the source:
`c.is_alphanum() || c == '-' || c == '.'` (ASCII alphanumerics in the model). -/
def isIdChar (c : Char) : Bool :=
  c.isAlphanum || c = '-' || c = '.'

/-- Model of `idstring`: one or more identifier characters. -/
def idstring (i : List Char) : PRes (List Char) :=
  takeWhile1 isIdChar i

/-- Model of `license_idstring`: `recognize(pair(idstring, opt(complete(char('+')))))`,
returning the consumed slice (identifier plus optional trailing `+`). -/
def license_idstring (i : List Char) : PRes (List Char) :=
  PRes.bind (idstring i) fun rest w =>
    match optP rest (completeP (charStreaming '+' rest)) with
    | .ok rest2 (some _) => .ok rest2 (w ++ ['+'])
    | .ok rest2 none => .ok rest2 w
    | .err => .err
    | .incomplete => .incomplete
    | .fuelOut => .fuelOut

/-- Model of `document_ref`: `delimited(tag("DocumentRef-"), idstring, char(':'))`.
The trailing `char(':')` is the streaming variant. -/
def document_ref (i : List Char) : PRes (List Char) :=
  PRes.bind (tagP "DocumentRef-".toList i) fun r1 _ =>
    PRes.bind (idstring r1) fun r2 d =>
      PRes.bind (charStreaming ':' r2) fun r3 _ => .ok r3 d

/-- Model of `license_ref`:
`separated_pair(opt(document_ref), tag("LicenseRef-"), idstring)`. -/
def license_ref (i : List Char) : PRes (Option (List Char) × List Char) :=
  PRes.bind (optP i (document_ref i)) fun r1 d =>
    PRes.bind (tagP "LicenseRef-".toList r1) fun r2 _ =>
      PRes.bind (idstring r2) fun r3 x => .ok r3 (d, x)

/-- AST leaf from `inner_variant.rs` / `expression_variant.rs`:
identifier, optional document reference, and the `LicenseRef-` flag. -/
structure SimpleExpression where
  identifier : List Char
  document_ref : Option (List Char)
  license_ref : Bool
deriving DecidableEq, Repr

/-- Pairing of a license and exception from `WithExpression` in the source. -/
structure WithExpression where
  license : SimpleExpression
  exception : List Char
deriving DecidableEq, Repr

/-- The AST of `parser.rs` (`enum Expression`), structurally identical to
`ExpressionVariant` in `expression_variant.rs`. -/
inductive Expression where
  | Simple (s : SimpleExpression)
  | With (w : WithExpression)
  | And (l r : Expression)
  | Or (l r : Expression)
  | Parens (e : Expression)
deriving DecidableEq, Repr

/-- Model of `simple_license_expression`: `license_ref` is attempted first,
falling back to `license_idstring`. -/
def simple_license_expression (i : List Char) : PRes SimpleExpression :=
  altP (PRes.mapv (fun p => SimpleExpression.mk p.2 p.1 true) (license_ref i))
    (fun _ => PRes.mapv (fun w => SimpleExpression.mk w none false)
      (license_idstring i))

/-- Model of `with_expression` from `parser.rs`:
`separated_pair(simple_license_expression, delimited(multispace1, tag_no_case("WITH"), multispace1), idstring)`. -/
def with_expression (i : List Char) : PRes Expression :=
  PRes.bind (simple_license_expression i) fun r1 lic =>
    PRes.bind (multispace1 r1) fun r2 _ =>
      PRes.bind (tagNoCase "WITH".toList r2) fun r3 _ =>
        PRes.bind (multispace1 r3) fun r4 _ =>
          PRes.bind (idstring r4) fun r5 exc =>
            .ok r5 (Expression.With ⟨lic, exc⟩)

/-- Binary operator marker from `parser.rs` (`enum Oper`). -/
inductive Oper where
  | and
  | or
deriving DecidableEq, Repr

/-- Model of `fold_exprs`: fold the collected `(operator, operand)` pairs onto
the initial left operand in left-to-right order. -/
def fold_exprs (initial : Expression) (remainder : List (Oper × Expression)) :
    Expression :=
  remainder.foldl
    (fun acc p =>
      match p.1 with
      | .and => Expression.And acc p.2
      | .or => Expression.Or acc p.2)
    initial

mutual

/-- Model of `parens` from `parser.rs`: whitespace-delimited `"(" expr ")"`,
wrapping the inner expression in an explicit `Parens` node. -/
def parensP : Nat → List Char → PRes Expression
  | 0, _ => .fuelOut
  | n + 1, i =>
    PRes.bind (tagP "(".toList (multispace0 i)) fun r1 _ =>
      PRes.bind (exprP n r1) fun r2 e =>
        PRes.bind (tagP ")".toList r2) fun r3 _ =>
          .ok (multispace0 r3) (Expression.Parens e)

/-- Model of `factor` from `parser.rs`: `with_expression`, then a simple
expression, then a parenthesized expression, each whitespace-delimited. -/
def factorP : Nat → List Char → PRes Expression
  | 0, _ => .fuelOut
  | n + 1, i =>
    altP
      (PRes.bind (with_expression (multispace0 i)) fun r1 e =>
        .ok (multispace0 r1) e)
      (fun _ =>
        altP
          (PRes.bind (simple_license_expression (multispace0 i)) fun r1 s =>
            .ok (multispace0 r1) (Expression.Simple s))
          (fun _ => parensP n i))

/-- Model of the `many0` loop inside `term`:
repeatedly `preceded(tag_no_case("AND"), factor)`, including nom's
`many0` guard that errors if an iteration consumes nothing. -/
def termManyP : Nat → List Char → PRes (List (Oper × Expression))
  | 0, _ => .fuelOut
  | n + 1, i =>
    match tagNoCase "AND".toList i with
    | .ok r1 _ =>
      match factorP n r1 with
      | .ok r2 v =>
        if r2.length = i.length then .err
        else
          match termManyP n r2 with
          | .ok r3 vs => .ok r3 ((Oper.and, v) :: vs)
          | .err => .err
          | .incomplete => .incomplete
          | .fuelOut => .fuelOut
      | .err => .ok i []
      | .incomplete => .incomplete
      | .fuelOut => .fuelOut
    | .err => .ok i []
    | .incomplete => .incomplete
    | .fuelOut => .fuelOut

/-- Model of `term` from `parser.rs`: a factor followed by
`many0(AND factor)`, folded left. -/
def termP : Nat → List Char → PRes Expression
  | 0, _ => .fuelOut
  | n + 1, i =>
    PRes.bind (factorP n i) fun r1 initial =>
      PRes.bind (termManyP n r1) fun r2 remainder =>
        .ok r2 (fold_exprs initial remainder)

/-- Model of the `many0` loop inside `expr`:
repeatedly `preceded(tag_no_case("OR"), term)`. -/
def exprManyP : Nat → List Char → PRes (List (Oper × Expression))
  | 0, _ => .fuelOut
  | n + 1, i =>
    match tagNoCase "OR".toList i with
    | .ok r1 _ =>
      match termP n r1 with
      | .ok r2 v =>
        if r2.length = i.length then .err
        else
          match exprManyP n r2 with
          | .ok r3 vs => .ok r3 ((Oper.or, v) :: vs)
          | .err => .err
          | .incomplete => .incomplete
          | .fuelOut => .fuelOut
      | .err => .ok i []
      | .incomplete => .incomplete
      | .fuelOut => .fuelOut
    | .err => .ok i []
    | .incomplete => .incomplete
    | .fuelOut => .fuelOut

/-- Model of `expr` from `parser.rs`: a term followed by
`many0(OR term)`, folded left. -/
def exprP : Nat → List Char → PRes Expression
  | 0, _ => .fuelOut
  | n + 1, i =>
    PRes.bind (termP n i) fun r1 initial =>
      PRes.bind (exprManyP n r1) fun r2 remainder =>
        .ok r2 (fold_exprs initial remainder)

end

/-- Outcome of `Expression::parse` (and `ExpressionVariant::parse`):
success, `SpdxExpressionError::Parse` carrying the full original input,
a panic (nom's `finish()` panics on `Err::Incomplete`), or the model's
fuel-exhaustion artifact. -/
inductive ParseOutcome where
  | ok (e : Expression)
  | parseError (original : List Char)
  | panicked
  | modelFuelOut
deriving DecidableEq, Repr

/-- Model of `Expression::parse` in `parser.rs`: run `expr`, `finish()` the
result (panicking on `Incomplete`), and demand that the whole input was
consumed, otherwise `SpdxExpressionError::Parse(i.to_string())`. -/
def Expression.parse (i : List Char) : ParseOutcome :=
  match exprP (4 * i.length + 8) i with
  | .ok rem e => if rem = [] then .ok e else .parseError i
  | .err => .parseError i
  | .incomplete => .panicked
  | .fuelOut => .modelFuelOut

/-- Model of `Display for SimpleExpression`:
`[DocumentRef-<doc>:][LicenseRef-]<identifier>`. -/
def renderSimple (s : SimpleExpression) : List Char :=
  (match s.document_ref with
   | some d => "DocumentRef-".toList ++ d ++ [':']
   | none => []) ++
  (if s.license_ref then "LicenseRef-".toList else []) ++ s.identifier

/-- Model of `Display for ExpressionVariant` in `expression_variant.rs`:
the canonical textual rendering of an AST. -/
def render : Expression → List Char
  | .Simple s => renderSimple s
  | .With w => renderSimple w.license ++ " WITH ".toList ++ w.exception
  | .And l r => render l ++ " AND ".toList ++ render r
  | .Or l r => render l ++ " OR ".toList ++ render r
  | .Parens e => '(' :: (render e ++ [')'])

/-! ## The historical grammar of `src/parse.rs` and the `SPDXExpression` facade -/

/-- Operator marker of `inner_variant.rs` (`enum SpdxOperator`). -/
inductive SpdxOperator where
  | And
  | Or
deriving DecidableEq, Repr

/-- The AST of `inner_variant.rs` (`enum ExpressionVariant` with
`CompoundExpression` inlined as a recursive constructor). -/
inductive ExpressionVariant where
  | Simple (s : SimpleExpression)
  | Compound (left : ExpressionVariant) (operator : SpdxOperator)
      (right : ExpressionVariant)
  | With (w : WithExpression)
deriving DecidableEq, Repr

/-- Constructor helper `ExpressionVariant::and`. -/
def ExpressionVariant.and (l r : ExpressionVariant) : ExpressionVariant :=
  .Compound l .And r

/-- Constructor helper `ExpressionVariant::or`. -/
def ExpressionVariant.or (l r : ExpressionVariant) : ExpressionVariant :=
  .Compound l .Or r

/-- Model of `simple_expression` from `parse.rs` (same recognizers as
`simple_license_expression`, producing an `ExpressionVariant`). -/
def simple_expressionV (i : List Char) : PRes ExpressionVariant :=
  altP
    (PRes.mapv (fun p => ExpressionVariant.Simple ⟨p.2, p.1, true⟩)
      (license_ref i))
    (fun _ => PRes.mapv (fun w => ExpressionVariant.Simple ⟨w, none, false⟩)
      (license_idstring i))

/-- Model of `with` from `parse.rs`: `alt((tag("WITH"), tag("with")))`. -/
def withTag (i : List Char) : PRes (List Char) :=
  altP (tagP "WITH".toList i) (fun _ => tagP "with".toList i)

/-- Model of `and` from `parse.rs`: `alt((tag("AND"), tag("and")))`. -/
def andTag (i : List Char) : PRes (List Char) :=
  altP (tagP "AND".toList i) (fun _ => tagP "and".toList i)

/-- Model of `or` from `parse.rs`: `alt((tag("OR"), tag("or")))`. -/
def orTag (i : List Char) : PRes (List Char) :=
  altP (tagP "OR".toList i) (fun _ => tagP "or".toList i)

/-- Model of `with_expression` from `parse.rs`:
`tuple((simple_license_expression, space1, with, space1, idstring))`. -/
def with_expressionV (i : List Char) : PRes ExpressionVariant :=
  PRes.bind (simple_license_expression i) fun r1 lic =>
    PRes.bind (space1 r1) fun r2 _ =>
      PRes.bind (withTag r2) fun r3 _ =>
        PRes.bind (space1 r3) fun r4 _ =>
          PRes.bind (idstring r4) fun r5 exc =>
            .ok r5 (ExpressionVariant.With ⟨lic, exc⟩)

/-- Apply `ws(p)` from `parse.rs`: leading and trailing `multispace0`. -/
def wsP {α : Type} (p : List Char → PRes α) (i : List Char) : PRes α :=
  PRes.bind (p (multispace0 i)) fun r v => .ok (multispace0 r) v

mutual

/-- Model of `parentheses` from `parse.rs`: `"(" alt(...) ")"` with no
`Parens` node in this historical AST. -/
def parenthesesV : Nat → List Char → PRes ExpressionVariant
  | 0, _ => .fuelOut
  | n + 1, i =>
    PRes.bind (charStreaming '(' i) fun r1 _ =>
      PRes.bind
        (altP (parenthesesV n r1) (fun _ =>
          altP (and_expressionV n r1) (fun _ =>
            altP (or_expressionV n r1) (fun _ =>
              altP (with_expressionV r1) (fun _ =>
                simple_expressionV r1)))))
        fun r2 e =>
          PRes.bind (charStreaming ')' r2) fun r3 _ => .ok r3 e

/-- Model of `and_expression` from `parse.rs`. -/
def and_expressionV : Nat → List Char → PRes ExpressionVariant
  | 0, _ => .fuelOut
  | n + 1, i =>
    PRes.bind
      (altP (parenthesesV n i) (fun _ =>
        altP (simple_expressionV i) (fun _ =>
          altP (wsP (or_expressionV n) i) (fun _ =>
            wsP with_expressionV i))))
      fun r1 left =>
        PRes.bind (wsP andTag r1) fun r2 _ =>
          PRes.bind
            (altP (wsP (parenthesesV n) r2) (fun _ =>
              altP (wsP (and_expressionV n) r2) (fun _ =>
                altP (wsP (or_expressionV n) r2) (fun _ =>
                  altP (wsP with_expressionV r2) (fun _ =>
                    wsP simple_expressionV r2)))))
            fun r3 right => .ok r3 (ExpressionVariant.and left right)

/-- Model of `or_expression` from `parse.rs`. -/
def or_expressionV : Nat → List Char → PRes ExpressionVariant
  | 0, _ => .fuelOut
  | n + 1, i =>
    PRes.bind
      (altP (wsP (parenthesesV n) i) (fun _ =>
        altP (wsP (and_expressionV n) i) (fun _ =>
          altP (wsP with_expressionV i) (fun _ =>
            wsP simple_expressionV i))))
      fun r1 left =>
        PRes.bind (wsP orTag r1) fun r2 _ =>
          PRes.bind
            (altP (wsP (parenthesesV n) r2) (fun _ =>
              altP (wsP (and_expressionV n) r2) (fun _ =>
                altP (wsP (or_expressionV n) r2) (fun _ =>
                  wsP simple_expressionV r2))))
            fun r3 right => .ok r3 (ExpressionVariant.or left right)

end

/-- Model of `spdx_expression` from `parse.rs`, the entry point used by
`SPDXExpression::parse`. -/
def spdx_expression (n : Nat) (i : List Char) : PRes ExpressionVariant :=
  altP (wsP (parenthesesV n) i) (fun _ =>
    altP (wsP (and_expressionV n) i) (fun _ =>
      altP (wsP (or_expressionV n) i) (fun _ =>
        wsP simple_expressionV i)))

/-- Outcome of `SPDXExpression::parse` in `expression.rs`: the code calls
`parse::spdx_expression(expression).unwrap().1`, so any parse failure
(`Error` or `Incomplete`) panics instead of returning the declared
`SpdxExpressionError::Parse`; remaining input is silently discarded. -/
inductive SPDXOutcome where
  | ok (expression_string : List Char) (inner : ExpressionVariant)
  | panicked
  | modelFuelOut
deriving DecidableEq, Repr

/-- Model of `SPDXExpression::parse`. -/
def SPDXExpression.parse (i : List Char) : SPDXOutcome :=
  match spdx_expression (4 * i.length + 8) i with
  | .ok _rem v => .ok i v
  | .err => .panicked
  | .incomplete => .panicked
  | .fuelOut => .modelFuelOut

/-! ## The `licenses` method of `SPDXExpression` -/

/-- Rust's `char::is_ascii_whitespace`, the splitter of
`split_ascii_whitespace`. -/
def isAsciiWs (c : Char) : Bool :=
  c = ' ' || c = '\t' || c = '\n' || c = '\x0c' || c = '\r'

/-- Accumulating worker for `splitAsciiWs`; `acc` holds the current chunk
in reverse. -/
def splitAsciiWsAux : List Char → List Char → List (List Char)
  | [], acc => if acc.isEmpty then [] else [acc.reverse]
  | c :: cs, acc =>
    if isAsciiWs c then
      if acc.isEmpty then splitAsciiWsAux cs []
      else acc.reverse :: splitAsciiWsAux cs []
    else splitAsciiWsAux cs (c :: acc)

/-- Split a string into the chunks produced by `split_ascii_whitespace`
(non-empty maximal runs of non-whitespace). -/
def splitAsciiWs (i : List Char) : List (List Char) :=
  splitAsciiWsAux i []

/-- Strict lexicographic (byte) order on strings, mirroring Rust's `Ord`
for `String` on ASCII data. -/
def lexLt : List Char → List Char → Bool
  | [], [] => false
  | [], _ :: _ => true
  | _ :: _, [] => false
  | a :: as', b :: bs' => a < b || (a = b && lexLt as' bs')

/-- Insert into a sorted list, keeping ascending `lexLt` order (the effect
of `sort_unstable` for a total order). -/
def insertLex (x : List Char) : List (List Char) → List (List Char)
  | [] => [x]
  | y :: ys => if lexLt y x then y :: insertLex x ys else x :: y :: ys

/-- Sort ascending by `lexLt` (insertion sort; agrees with any comparison
sort for a total order once duplicates are deduplicated). -/
def sortLex : List (List Char) → List (List Char)
  | [] => []
  | x :: xs => insertLex x (sortLex xs)

/-- Remove consecutive duplicates, the effect of `Vec::dedup`. -/
def dedupConsec : List (List Char) → List (List Char)
  | [] => []
  | [x] => [x]
  | x :: y :: ys => if x = y then dedupConsec (y :: ys)
                    else x :: dedupConsec (y :: ys)

/-- Model of `SPDXExpression::licenses`: split the stored original
expression string on ASCII whitespace, drop the exact tokens `"OR"`,
`"AND"`, `"WITH"`, delete all `(` and `)` characters, sort, and dedup. -/
def licensesText (i : List Char) : List (List Char) :=
  let toks := splitAsciiWs i
  let toks := toks.filter
    (fun w => w ≠ "OR".toList && w ≠ "AND".toList && w ≠ "WITH".toList)
  let toks := toks.map (List.filter (fun c => c ≠ '(' && c ≠ ')'))
  dedupConsec (sortLex toks)

/-! ## Spec-side canonicalization of claim C1 (keyword uppercasing only) -/

/-- Case-insensitive equality of character lists. -/
def ciEqList : List Char → List Char → Bool
  | [], [] => true
  | a :: as', b :: bs' => ciChar a b && ciEqList as' bs'
  | _, _ => false

/-- Modelled from the spec: uppercase a whitespace-delimited word exactly
when it is one of the operator keywords `AND`/`OR`/`WITH` (matched
case-insensitively), otherwise leave it unchanged. -/
def upKeywordWord (w : List Char) : List Char :=
  if ciEqList w "AND".toList || ciEqList w "OR".toList ||
      ciEqList w "WITH".toList then
    w.map Char.toUpper
  else w

/-- Worker for `canonicalizeSpec`; `acc` holds the current word reversed. -/
def canonicalizeSpecAux : List Char → List Char → List Char
  | [], acc => upKeywordWord acc.reverse
  | c :: cs, acc =>
    if isMultispace c then
      upKeywordWord acc.reverse ++ c :: canonicalizeSpecAux cs []
    else canonicalizeSpecAux cs (c :: acc)

/-- Modelled from the spec: the canonicalization of claim C1, which "only
uppercases the operator keywords AND/OR/WITH and otherwise preserves the
text exactly, including redundant parentheses" (and hence all whitespace). -/
def canonicalizeSpec (i : List Char) : List Char :=
  canonicalizeSpecAux i []

/-! ## Spec-side canonical form (whitespace normalization added)

`canon` follows the spec's token grammar (§4.2) over the raw characters:
words are maximal runs of non-whitespace, non-parenthesis characters;
an atom word must have one of the §4.1 shapes (`idstring` with optional
trailing `+`, `LicenseRef-` reference, or `DocumentRef-…:LicenseRef-…`);
operator keywords are matched case-insensitively as whole words; `WITH`
must be flanked by whitespace.  The output uppercases the operator
keywords, separates tokens by single spaces, and attaches parentheses
directly, which is exactly the claimed canonical form. -/

/-- Characters a word token is made of: anything but whitespace and
parentheses. -/
def wordChar (c : Char) : Bool :=
  !isMultispace c && c ≠ '(' && c ≠ ')'

/-- Head of the remaining input is a whitespace character. -/
def headIsWs : List Char → Bool
  | [] => false
  | c :: _ => isMultispace c

/-- Modelled from the spec (§4.1 `idstring`): a non-empty run of
identifier characters. -/
def isIdStrB (w : List Char) : Bool :=
  !w.isEmpty && w.all isIdChar

/-- Modelled from the spec (§4.1 `license_idstring`): an `idstring` with an
optional trailing `+`. -/
def isLicenseIdStrB (w : List Char) : Bool :=
  isIdStrB w ||
  (match w.getLast? with
   | some '+' => isIdStrB w.dropLast
   | _ => false)

/-- Modelled from the spec (§4.1 `license_ref`, without a document
reference): `LicenseRef-` followed by an `idstring`. -/
def licenseRefTail (w : List Char) : Bool :=
  "LicenseRef-".toList.isPrefixOf w && isIdStrB (w.drop 11)

/-- Modelled from the spec (§4.1 `license_ref`): an optional
`DocumentRef-<idstring>:` then `LicenseRef-<idstring>`. -/
def isLicenseRefWord (w : List Char) : Bool :=
  licenseRefTail w ||
  ("DocumentRef-".toList.isPrefixOf w &&
    (!((w.drop 12).takeWhile isIdChar).isEmpty &&
      (match (w.drop 12).drop ((w.drop 12).takeWhile isIdChar).length with
       | ':' :: tail => licenseRefTail tail
       | _ => false)))

/-- Modelled from the spec (§4.1 `simple_license_expression`): a word that
is a complete atom — a reference or a license id string. -/
def isAtomWord (w : List Char) : Bool :=
  isLicenseRefWord w || isLicenseIdStrB w

/-- Canonicalize one atom: the next word must be a complete atom shape and
is emitted verbatim. -/
def canonAtom (i : List Char) : Option (List Char × List Char) :=
  if isAtomWord (i.takeWhile wordChar) then
    some (i.takeWhile wordChar, i.drop (i.takeWhile wordChar).length)
  else none

/-- Final step of `canonWith`: the exception must be a whole `idstring`
word. -/
def canonWithExc (w r3 : List Char) : Option (List Char × List Char) :=
  if isIdStrB (r3.takeWhile wordChar) then
    some (w ++ " WITH ".toList ++ r3.takeWhile wordChar,
      r3.drop (r3.takeWhile wordChar).length)
  else none

/-- After the `WITH` keyword: whitespace, then the exception word. -/
def canonWithWs2 (w r2 : List Char) : Option (List Char × List Char) :=
  if headIsWs r2 then canonWithExc w (multispace0 r2) else none

/-- Keyword step of `canonWith`: the next word must be the whole keyword
`WITH`, case-insensitively, emitted in uppercase. -/
def canonWithKw (w r1 : List Char) : Option (List Char × List Char) :=
  if ciEqList (r1.takeWhile wordChar) "WITH".toList then
    canonWithWs2 w (r1.drop (r1.takeWhile wordChar).length)
  else none

/-- Canonicalize a `WITH` expression: atom, whitespace, the whole word
`WITH` (case-insensitively), whitespace, and an `idstring` word; the
keyword is emitted in uppercase with single spaces. -/
def canonWith (i : List Char) : Option (List Char × List Char) :=
  match canonAtom i with
  | none => none
  | some (w, r0) =>
    if headIsWs r0 then canonWithKw w (multispace0 r0) else none

mutual

/-- Canonicalize a factor: a `WITH` expression, an atom, or a
parenthesized expression, with surrounding whitespace dropped. -/
def canonFactor : Nat → List Char → Option (List Char × List Char)
  | 0, _ => none
  | n + 1, i =>
    match canonWith (multispace0 i) with
    | some (o, r) => some (o, multispace0 r)
    | none =>
      match canonAtom (multispace0 i) with
      | some (o, r) => some (o, multispace0 r)
      | none =>
        match multispace0 i with
        | '(' :: r1 =>
          match canonExpr n r1 with
          | some (o, r2) =>
            match r2 with
            | ')' :: r3 => some ('(' :: (o ++ [')']), multispace0 r3)
            | _ => none
          | none => none
        | _ => none

/-- Canonicalize the `(AND factor)*` tail of a term, emitting
`" AND "`-separated canonical factors. -/
def canonTermMany : Nat → List Char → Option (List Char × List Char)
  | 0, _ => none
  | n + 1, i =>
    if ciEqList (i.takeWhile wordChar) "AND".toList then
      match canonFactor n (i.drop (i.takeWhile wordChar).length) with
      | some (o, r) =>
        match canonTermMany n r with
        | some (o2, r2) => some (" AND ".toList ++ o ++ o2, r2)
        | none => none
      | none => none
    else some ([], i)

/-- Canonicalize a term: a factor and its `AND` tail. -/
def canonTerm : Nat → List Char → Option (List Char × List Char)
  | 0, _ => none
  | n + 1, i =>
    match canonFactor n i with
    | some (o, r) =>
      match canonTermMany n r with
      | some (o2, r2) => some (o ++ o2, r2)
      | none => none
    | none => none

/-- Canonicalize the `(OR term)*` tail of an expression. -/
def canonExprMany : Nat → List Char → Option (List Char × List Char)
  | 0, _ => none
  | n + 1, i =>
    if ciEqList (i.takeWhile wordChar) "OR".toList then
      match canonTerm n (i.drop (i.takeWhile wordChar).length) with
      | some (o, r) =>
        match canonExprMany n r with
        | some (o2, r2) => some (" OR ".toList ++ o ++ o2, r2)
        | none => none
      | none => none
    else some ([], i)

/-- Canonicalize an expression: a term and its `OR` tail. -/
def canonExpr : Nat → List Char → Option (List Char × List Char)
  | 0, _ => none
  | n + 1, i =>
    match canonTerm n i with
    | some (o, r) =>
      match canonExprMany n r with
      | some (o2, r2) => some (o ++ o2, r2)
      | none => none
    | none => none

end

/-- Modelled from the spec: the canonical form of an input — the whole
input must canonicalize, producing uppercase operator keywords,
single-space token separation, and attached parentheses. -/
def canon (i : List Char) : Option (List Char) :=
  match canonExpr (4 * i.length + 8) i with
  | some (o, []) => some o
  | _ => none

/-- The parser's remaining input begins with a word character that is not an
identifier character (such as `+` or `:`): no keyword tag, closing
parenthesis, or end of input can follow, so an enclosing successful parse is
impossible. -/
def BadHead (r : List Char) : Prop :=
  ∃ c t, r = c :: t ∧ wordChar c = true ∧ isIdChar c = false

/-- The canonicalizer's remaining input begins with a word that is not the
whole keyword `OR`: the `(OR term)*` loop stops, a closing parenthesis
cannot follow, and the input is not exhausted, so a complete
canonicalization is impossible. -/
def StuckW (r : List Char) : Prop :=
  r.takeWhile wordChar ≠ [] ∧
    ciEqList (r.takeWhile wordChar) "OR".toList = false

/-- The parser's remaining input begins with a word character that cannot
start the keyword `OR`: the `(OR term)*` loop, a closing parenthesis, and
end of input are all impossible, so every enclosing parse leaves this
text unconsumed. Covers both `BadHead` remains and stops at an `AND`-like
keyword whose right operand failed to parse. -/
def TStop (r : List Char) : Prop :=
  ∃ c t, r = c :: t ∧ wordChar c = true ∧ ciChar 'O' c = false

/-- The parser's remaining input begins with a word character: a closing
parenthesis or end of input cannot follow, so every enclosing parse
leaves this text unconsumed. -/
def PStop (r : List Char) : Prop :=
  ∃ c t, r = c :: t ∧ wordChar c = true

/-- Text of a fold tail: the rendered `(operator, operand)` pairs in order. -/
def renderTail : List (Oper × Expression) → List Char
  | [] => []
  | p :: rest =>
    (match p.1 with
     | .and => " AND ".toList
     | .or => " OR ".toList) ++ render p.2 ++ renderTail rest

end Spdx

namespace Spdx

/-! ## Infrastructure lemmas -/

theorem wordChar_of_isIdChar {c : Char} (h : isIdChar c = true) :
    wordChar c = true := by
  have h1 : isMultispace c = false := by
    cases hms : isMultispace c
    · rfl
    · exfalso
      have : ((c = ' ' ∨ c = '\t') ∨ c = '\n') ∨ c = '\r' := by
        simpa [isMultispace, Bool.or_eq_true, decide_eq_true_eq] using hms
      rcases this with ((rfl | rfl) | rfl) | rfl <;> exact absurd h (by decide)
  have h2 : c ≠ '(' := by rintro rfl; exact absurd h (by decide)
  have h3 : c ≠ ')' := by rintro rfl; exact absurd h (by decide)
  simp [wordChar, h1, h2, h3]

theorem not_isIdChar_of_not_wordChar {c : Char} (h : wordChar c = false) :
    isIdChar c = false := by
  cases hc : isIdChar c
  · rfl
  · rw [wordChar_of_isIdChar hc] at h; exact absurd h (by simp)

theorem wordChar_of_isMultispace_false {c : Char} (h : isMultispace c = false)
    (h2 : c ≠ '(') (h3 : c ≠ ')') : wordChar c = true := by
  simp [wordChar, h, h2, h3]

theorem isMultispace_false_of_wordChar {c : Char} (h : wordChar c = true) :
    isMultispace c = false := by
  cases hms : isMultispace c
  · rfl
  · simp [wordChar, hms] at h

theorem takeWhile_append_all {α : Type} {p : α → Bool} {a : List α}
    (b : List α) (h : a.all p) :
    (a ++ b).takeWhile p = a ++ b.takeWhile p := by
  induction a with
  | nil => simp
  | cons x xs ih =>
    simp only [List.all_cons, Bool.and_eq_true] at h
    simp [List.takeWhile_cons, h.1, ih h.2]

theorem dropWhile_append_all {α : Type} {p : α → Bool} {a : List α}
    (b : List α) (h : a.all p) :
    (a ++ b).dropWhile p = b.dropWhile p := by
  induction a with
  | nil => simp
  | cons x xs ih =>
    simp only [List.all_cons, Bool.and_eq_true] at h
    simp [List.dropWhile_cons, h.1, ih h.2]

theorem drop_length_takeWhile {α : Type} (p : α → Bool) (i : List α) :
    i.drop (i.takeWhile p).length = i.dropWhile p := by
  have h := List.drop_left (i.takeWhile p) (i.dropWhile p)
  rw [List.takeWhile_append_dropWhile] at h
  exact h

theorem head_dropWhile_false {α : Type} {p : α → Bool} {i : List α} {c : α}
    {t : List α} (h : i.dropWhile p = c :: t) : p c = false := by
  have hne : i.dropWhile p ≠ [] := by simp [h]
  have := List.head_dropWhile_not p i hne
  rwa [show (i.dropWhile p).head hne = c by simp [h]] at this

theorem all_takeWhile {α : Type} (p : α → Bool) (i : List α) :
    (i.takeWhile p).all p := by
  rw [List.all_eq_true]
  exact fun x hx => List.mem_takeWhile_imp hx

theorem takeWhile_eq_self_of_all {α : Type} {p : α → Bool} {a : List α}
    (h : a.all p) : a.takeWhile p = a := by
  have := takeWhile_append_all (p := p) (a := a) [] h
  simpa using this

theorem PRes.bind_ok {α β : Type} {r : PRes α} {f : List Char → α → PRes β}
    {rest : List Char} {v : β} (h : PRes.bind r f = .ok rest v) :
    ∃ r1 v1, r = .ok r1 v1 ∧ f r1 v1 = .ok rest v := by
  cases r with
  | ok r1 v1 => exact ⟨r1, v1, rfl, h⟩
  | err => exact absurd h (by simp [PRes.bind])
  | incomplete => exact absurd h (by simp [PRes.bind])
  | fuelOut => exact absurd h (by simp [PRes.bind])

theorem PRes.mapv_ok {α β : Type} {f : α → β} {r : PRes α}
    {rest : List Char} {v : β} (h : PRes.mapv f r = .ok rest v) :
    ∃ v0, r = .ok rest v0 ∧ v = f v0 := by
  cases r with
  | ok r1 v1 =>
    simp only [PRes.mapv, PRes.ok.injEq] at h
    exact ⟨v1, by rw [h.1], h.2.symm⟩
  | err => exact absurd h (by simp [PRes.mapv])
  | incomplete => exact absurd h (by simp [PRes.mapv])
  | fuelOut => exact absurd h (by simp [PRes.mapv])

theorem altP_ok {α : Type} {a : PRes α} {b : Unit → PRes α}
    {rest : List Char} {v : α} (h : altP a b = .ok rest v) :
    a = .ok rest v ∨ (a = .err ∧ b () = .ok rest v) := by
  cases a with
  | ok r1 v1 => exact .inl h
  | err => exact .inr ⟨rfl, h⟩
  | incomplete => exact absurd h (by simp [altP])
  | fuelOut => exact absurd h (by simp [altP])

theorem optP_ok {α : Type} {i : List Char} {r : PRes α} {rest : List Char}
    {v : Option α} (h : optP i r = .ok rest v) :
    (∃ v0, r = .ok rest v0 ∧ v = some v0) ∨
      (r = .err ∧ rest = i ∧ v = none) := by
  cases r with
  | ok r1 v1 =>
    simp only [optP, PRes.ok.injEq] at h
    exact .inl ⟨v1, by rw [h.1], h.2.symm⟩
  | err =>
    simp only [optP, PRes.ok.injEq] at h
    exact .inr ⟨rfl, h.1.symm, h.2.symm⟩
  | incomplete => exact absurd h (by simp [optP])
  | fuelOut => exact absurd h (by simp [optP])

theorem takeWhile1_ok {p : Char → Bool} {i r v : List Char}
    (h : takeWhile1 p i = .ok r v) :
    v = i.takeWhile p ∧ r = i.dropWhile p ∧ v ≠ [] := by
  unfold takeWhile1 at h
  by_cases he : (i.takeWhile p).isEmpty
  · simp [he] at h
  · simp only [he, if_false] at h
    obtain ⟨h1, h2⟩ := PRes.ok.inj h
    refine ⟨h2.symm, ?_, by rw [← h2]; simpa [List.isEmpty_iff] using he⟩
    rw [← h1, drop_length_takeWhile]

theorem tagP_ok {t i r v : List Char} (h : tagP t i = .ok r v) :
    i = t ++ r ∧ v = t := by
  unfold tagP at h
  by_cases hp : t.isPrefixOf i
  · simp only [hp, if_true] at h
    obtain ⟨h1, h2⟩ := PRes.ok.inj h
    obtain ⟨s, hs⟩ := List.isPrefixOf_iff_prefix.mp hp
    subst hs
    rw [List.drop_left] at h1
    exact ⟨by rw [h1], h2.symm⟩
  · simp [hp] at h

theorem charStreaming_ok {c : Char} {i r : List Char} {v : Char}
    (h : charStreaming c i = .ok r v) : i = c :: r := by
  cases i with
  | nil => exact absurd h (by simp [charStreaming])
  | cons x xs =>
    unfold charStreaming at h
    by_cases hx : x = c
    · obtain ⟨h1, _⟩ := PRes.ok.inj (by simpa [hx] using h)
      rw [hx, h1]
    · simp [hx] at h

theorem charStreaming_err_of_ne {c x : Char} {xs : List Char} (hx : x ≠ c) :
    charStreaming c (x :: xs) = .err := by
  simp [charStreaming, hx]

theorem multispace1_ok {i r : List Char} {v : Unit}
    (h : multispace1 i = .ok r v) :
    (∃ c t, i = c :: t ∧ isMultispace c = true) ∧ r = i.dropWhile isMultispace := by
  cases i with
  | nil => exact absurd h (by simp [multispace1])
  | cons c t =>
    unfold multispace1 at h
    by_cases hc : isMultispace c
    · have h1 : List.dropWhile isMultispace t = r := by simpa [hc] using h
      refine ⟨⟨c, t, rfl, hc⟩, ?_⟩
      rw [List.dropWhile_cons, if_pos hc, h1]
    · simp [hc] at h

theorem multispace1_err_of_not_ws {c : Char} {t : List Char}
    (hc : isMultispace c = false) : multispace1 (c :: t) = .err := by
  simp [multispace1, hc]

theorem char_toNat_inj {c d : Char} (h : c.toNat = d.toNat) : c = d :=
  Char.eq_of_val_eq (UInt32.ext h)

theorem toLower_spec (c : Char) :
    (65 ≤ c.toNat ∧ c.toNat ≤ 90 ∧ (Char.toLower c).toNat = c.toNat + 32) ∨
      (¬(65 ≤ c.toNat ∧ c.toNat ≤ 90) ∧ Char.toLower c = c) := by
  unfold Char.toLower
  by_cases hc : c.toNat ≥ 65 ∧ c.toNat ≤ 90
  · refine .inl ⟨hc.1, hc.2, ?_⟩
    rw [if_pos hc]
    show (Char.ofNat (c.toNat + 32)).toNat = c.toNat + 32
    have hv : (c.toNat + 32).isValidChar := by left; omega
    rw [Char.ofNat, dif_pos hv]
    rfl
  · rw [if_neg hc]; exact .inr ⟨hc, rfl⟩

theorem ciChar_symm (a b : Char) : ciChar a b = ciChar b a := by
  simp [ciChar, eq_comm]

theorem isIdChar_of_toNat_range {c : Char}
    (h : (65 ≤ c.toNat ∧ c.toNat ≤ 90) ∨ (97 ≤ c.toNat ∧ c.toNat ≤ 122)) :
    isIdChar c = true := by
  have halpha : c.isAlpha = true := by
    unfold Char.isAlpha Char.isUpper Char.isLower
    rcases h with ⟨h1, h2⟩ | ⟨h1, h2⟩
    · apply Bool.or_eq_true_iff.mpr; left
      simp only [Bool.and_eq_true, decide_eq_true_eq]
      exact ⟨h1, h2⟩
    · apply Bool.or_eq_true_iff.mpr; right
      simp only [Bool.and_eq_true, decide_eq_true_eq]
      exact ⟨h1, h2⟩
  simp [isIdChar, Char.isAlphanum, halpha]

theorem isIdChar_of_ciChar_upper {k c : Char} (h65 : 65 ≤ k.toNat)
    (h90 : k.toNat ≤ 90) (hci : ciChar k c = true) : isIdChar c = true := by
  rw [ciChar, decide_eq_true_eq] at hci
  rcases toLower_spec k with ⟨_, _, hk3⟩ | ⟨hkc, _⟩
  · rcases toLower_spec c with ⟨hc1, hc2, _⟩ | ⟨_, hcc⟩
    · exact isIdChar_of_toNat_range (.inl ⟨hc1, hc2⟩)
    · have hcn : c.toNat = k.toNat + 32 := by rw [← hk3, hci, hcc]
      exact isIdChar_of_toNat_range (.inr ⟨by omega, by omega⟩)
  · exact absurd ⟨h65, h90⟩ hkc

theorem eq_of_ciChar_A {c : Char} (h : ciChar 'A' c = true) :
    c = 'A' ∨ c = 'a' := by
  rw [ciChar, decide_eq_true_eq] at h
  have h' : Char.toLower c = 'a' := by rw [← h]; rfl
  rcases toLower_spec c with ⟨h1, h2, h3⟩ | ⟨_, hcase⟩
  · left
    rw [h'] at h3
    have hn : c.toNat = 65 := by
      have : ('a').toNat = 97 := rfl
      omega
    exact char_toNat_inj hn
  · right; rw [← hcase, h']

theorem ciEqList_length : ∀ {a b : List Char}, ciEqList a b = true →
    a.length = b.length
  | [], [], _ => rfl
  | [], _ :: _, h => by simp [ciEqList] at h
  | _ :: _, [], h => by simp [ciEqList] at h
  | x :: xs, y :: ys, h => by
    simp only [ciEqList, Bool.and_eq_true] at h
    simp [ciEqList_length h.2]

theorem ciEqList_cons_inv {x y : Char} {xs ys : List Char}
    (h : ciEqList (x :: xs) (y :: ys) = true) :
    ciChar x y = true ∧ ciEqList xs ys = true := by
  simpa [ciEqList, Bool.and_eq_true] using h

theorem wordChar_false_of_ws {c : Char} (h : isMultispace c = true) :
    wordChar c = false := by
  simp [wordChar, h]

theorem takeWhile_nil_of_ws {c : Char} {t : List Char}
    (h : isMultispace c = true) : (c :: t).takeWhile wordChar = [] := by
  simp [List.takeWhile_cons, wordChar_false_of_ws h]

theorem tagNoCase_ok_gen {t i r v : List Char} (h : tagNoCase t i = .ok r v) :
    t.length ≤ i.length ∧
      (List.zip t (i.take t.length)).all (fun p => ciChar p.1 p.2) = true ∧
      r = i.drop t.length ∧ v = i.take t.length := by
  unfold tagNoCase at h
  by_cases hc : t.length ≤ i.length ∧
      (List.zip t (i.take t.length)).all (fun p => ciChar p.1 p.2)
  · obtain ⟨h1, h2⟩ := PRes.ok.inj (by simpa [hc] using h)
    exact ⟨hc.1, hc.2, h1.symm, h2.symm⟩
  · rw [if_neg hc] at h
    exact absurd h (by simp)

theorem tagNoCase_mk {t u rest : List Char}
    (hlen : u.length = t.length)
    (hall : (List.zip t u).all (fun p => ciChar p.1 p.2) = true) :
    tagNoCase t (u ++ rest) = .ok rest u := by
  unfold tagNoCase
  have htake : (u ++ rest).take t.length = u := by
    rw [← hlen, List.take_left]
  have hdrop : (u ++ rest).drop t.length = rest := by
    rw [← hlen, List.drop_left]
  rw [if_pos ⟨by simp [← hlen], by rw [htake]; exact hall⟩, htake, hdrop]

theorem and_tag_of_ciEq {i : List Char}
    (hci : ciEqList (i.takeWhile wordChar) "AND".toList = true) :
    tagNoCase "AND".toList i = .ok (i.dropWhile wordChar) (i.takeWhile wordChar) ∧
      i.drop (i.takeWhile wordChar).length = i.dropWhile wordChar := by
  have hw : i.takeWhile wordChar ++ i.dropWhile wordChar = i :=
    List.takeWhile_append_dropWhile _ _
  have hlen : (i.takeWhile wordChar).length = 3 := by
    simpa using ciEqList_length hci
  constructor
  · have hall : (List.zip "AND".toList (i.takeWhile wordChar)).all
        (fun p => ciChar p.1 p.2) = true := by
      obtain ⟨w1, w2, w3, hw3⟩ := List.length_eq_three.mp hlen
      rw [hw3] at hci
      have h1 := ciEqList_cons_inv hci
      have h2 := ciEqList_cons_inv h1.2
      have h3 := ciEqList_cons_inv h2.2
      rw [hw3]
      simp [List.all_cons, ciChar_symm 'A' w1 ▸ h1.1,
        ciChar_symm 'N' w2 ▸ h2.1, ciChar_symm 'D' w3 ▸ h3.1]
    have := @tagNoCase_mk "AND".toList (i.takeWhile wordChar)
      (i.dropWhile wordChar) (by simpa using hlen) hall
    rwa [hw] at this
  · rw [drop_length_takeWhile]

theorem dropWhile_eq_self_of_takeWhile_nil {α : Type} {p : α → Bool}
    {l : List α} (h : l.takeWhile p = []) : l.dropWhile p = l := by
  have hl := List.takeWhile_append_dropWhile p l
  rw [h] at hl
  simpa using hl

theorem ciEqList_false_of_length {a b : List Char} (h : a.length ≠ b.length) :
    ciEqList a b = false := by
  cases hc : ciEqList a b
  · rfl
  · exact absurd (ciEqList_length hc) h

theorem and_tag_ok_cases {i r1 u : List Char}
    (h : tagNoCase "AND".toList i = .ok r1 u) :
    (ciEqList (i.takeWhile wordChar) "AND".toList = true ∧
      r1 = i.dropWhile wordChar) ∨
    (StuckW i ∧ ciEqList (i.takeWhile wordChar) "AND".toList = false) := by
  obtain ⟨hlen, hall, hr, _⟩ := tagNoCase_ok_gen h
  rcases hi : i with _ | ⟨c1, _ | ⟨c2, _ | ⟨c3, rest⟩⟩⟩ <;>
    rw [hi] at hlen <;> simp at hlen
  subst hi
  have hall' : ciChar 'A' c1 = true ∧ ciChar 'N' c2 = true ∧
      ciChar 'D' c3 = true := by
    simpa [List.all_cons] using hall
  have hid1 := isIdChar_of_ciChar_upper (by decide) (by decide) hall'.1
  have hid2 := isIdChar_of_ciChar_upper (by decide) (by decide) hall'.2.1
  have hid3 := isIdChar_of_ciChar_upper (by decide) (by decide) hall'.2.2
  have hw1 := wordChar_of_isIdChar hid1
  have hw2 := wordChar_of_isIdChar hid2
  have hw3 := wordChar_of_isIdChar hid3
  have hrest : r1 = rest := by simpa using hr
  subst hrest
  have htw : (c1 :: c2 :: c3 :: r1).takeWhile wordChar =
      c1 :: c2 :: c3 :: r1.takeWhile wordChar := by
    simp [List.takeWhile_cons, hw1, hw2, hw3]
  cases ht : r1.takeWhile wordChar with
  | nil =>
    left
    constructor
    · rw [htw, ht]
      simp [ciEqList, ciChar_symm c1 'A' ▸ hall'.1,
        ciChar_symm c2 'N' ▸ hall'.2.1, ciChar_symm c3 'D' ▸ hall'.2.2]
    · simp [List.dropWhile_cons, hw1, hw2, hw3,
        dropWhile_eq_self_of_takeWhile_nil ht]
  | cons d ds =>
    right
    refine ⟨⟨by rw [htw]; simp, ?_⟩, ?_⟩ <;>
      · apply ciEqList_false_of_length
        rw [htw, ht]
        simp

theorem or_tag_of_ciEq {i : List Char}
    (hci : ciEqList (i.takeWhile wordChar) "OR".toList = true) :
    tagNoCase "OR".toList i = .ok (i.dropWhile wordChar) (i.takeWhile wordChar) ∧
      i.drop (i.takeWhile wordChar).length = i.dropWhile wordChar := by
  have hw : i.takeWhile wordChar ++ i.dropWhile wordChar = i :=
    List.takeWhile_append_dropWhile _ _
  have hlen : (i.takeWhile wordChar).length = 2 := by
    simpa using ciEqList_length hci
  constructor
  · have hall : (List.zip "OR".toList (i.takeWhile wordChar)).all
        (fun p => ciChar p.1 p.2) = true := by
      obtain ⟨w1, w2, hw2⟩ := List.length_eq_two.mp hlen
      rw [hw2] at hci
      have h1 := ciEqList_cons_inv hci
      have h2 := ciEqList_cons_inv h1.2
      rw [hw2]
      simp [List.all_cons, ciChar_symm 'O' w1 ▸ h1.1,
        ciChar_symm 'R' w2 ▸ h2.1]
    have := @tagNoCase_mk "OR".toList (i.takeWhile wordChar)
      (i.dropWhile wordChar) (by simpa using hlen) hall
    rwa [hw] at this
  · rw [drop_length_takeWhile]

theorem or_tag_ok_cases {i r1 u : List Char}
    (h : tagNoCase "OR".toList i = .ok r1 u) :
    (ciEqList (i.takeWhile wordChar) "OR".toList = true ∧
      r1 = i.dropWhile wordChar) ∨
    (StuckW i ∧ ciEqList (i.takeWhile wordChar) "OR".toList = false) := by
  obtain ⟨hlen, hall, hr, _⟩ := tagNoCase_ok_gen h
  rcases hi : i with _ | ⟨c1, _ | ⟨c2, rest⟩⟩ <;>
    rw [hi] at hlen <;> simp at hlen
  subst hi
  have hall' : ciChar 'O' c1 = true ∧ ciChar 'R' c2 = true := by
    simpa [List.all_cons] using hall
  have hid1 := isIdChar_of_ciChar_upper (by decide) (by decide) hall'.1
  have hid2 := isIdChar_of_ciChar_upper (by decide) (by decide) hall'.2
  have hw1 := wordChar_of_isIdChar hid1
  have hw2 := wordChar_of_isIdChar hid2
  have hrest : r1 = rest := by simpa using hr
  subst hrest
  have htw : (c1 :: c2 :: r1).takeWhile wordChar =
      c1 :: c2 :: r1.takeWhile wordChar := by
    simp [List.takeWhile_cons, hw1, hw2]
  cases ht : r1.takeWhile wordChar with
  | nil =>
    left
    constructor
    · rw [htw, ht]
      simp [ciEqList, ciChar_symm c1 'O' ▸ hall'.1,
        ciChar_symm c2 'R' ▸ hall'.2]
    · simp [List.dropWhile_cons, hw1, hw2,
        dropWhile_eq_self_of_takeWhile_nil ht]
  | cons d ds =>
    right
    have hlen4 : ciEqList ((c1 :: c2 :: r1).takeWhile wordChar)
        "OR".toList = false := by
      apply ciEqList_false_of_length
      rw [htw, ht]
      simp
    exact ⟨⟨by rw [htw]; simp, hlen4⟩, hlen4⟩

theorem with_tag_of_ciEq {i : List Char}
    (hci : ciEqList (i.takeWhile wordChar) "WITH".toList = true) :
    tagNoCase "WITH".toList i =
      .ok (i.dropWhile wordChar) (i.takeWhile wordChar) ∧
      i.drop (i.takeWhile wordChar).length = i.dropWhile wordChar := by
  have hw : i.takeWhile wordChar ++ i.dropWhile wordChar = i :=
    List.takeWhile_append_dropWhile _ _
  have hlen : (i.takeWhile wordChar).length = 4 := by
    simpa using ciEqList_length hci
  constructor
  · have hall : (List.zip "WITH".toList (i.takeWhile wordChar)).all
        (fun p => ciChar p.1 p.2) = true := by
      obtain ⟨w1, w2, w3, w4, hw4⟩ : ∃ w1 w2 w3 w4,
          i.takeWhile wordChar = [w1, w2, w3, w4] := by
        rcases hww : i.takeWhile wordChar with _ | ⟨w1, ww⟩
        · rw [hww] at hlen; simp at hlen
        · rw [hww] at hlen
          have hlen3 : ww.length = 3 := by
            simp only [List.length_cons] at hlen
            omega
          obtain ⟨w2, w3, w4, hww2⟩ := List.length_eq_three.mp hlen3
          exact ⟨w1, w2, w3, w4, by rw [hww2]⟩
      rw [hw4] at hci
      have h1 := ciEqList_cons_inv hci
      have h2 := ciEqList_cons_inv h1.2
      have h3 := ciEqList_cons_inv h2.2
      have h4 := ciEqList_cons_inv h3.2
      rw [hw4]
      simp [List.all_cons, ciChar_symm 'W' w1 ▸ h1.1,
        ciChar_symm 'I' w2 ▸ h2.1, ciChar_symm 'T' w3 ▸ h3.1,
        ciChar_symm 'H' w4 ▸ h4.1]
    have := @tagNoCase_mk "WITH".toList (i.takeWhile wordChar)
      (i.dropWhile wordChar) (by simpa using hlen) hall
    rwa [hw] at this
  · rw [drop_length_takeWhile]

theorem with_tag_ok_ws {i r2 u : List Char} {c : Char} {t : List Char}
    (h : tagNoCase "WITH".toList i = .ok r2 u)
    (hws : r2 = c :: t) (hcws : isMultispace c = true) :
    ciEqList (i.takeWhile wordChar) "WITH".toList = true ∧
      r2 = i.dropWhile wordChar := by
  obtain ⟨hlen, hall, hr, _⟩ := tagNoCase_ok_gen h
  rcases hi : i with _ | ⟨c1, _ | ⟨c2, _ | ⟨c3, _ | ⟨c4, rest⟩⟩⟩⟩ <;>
    rw [hi] at hlen <;> simp at hlen
  subst hi
  have hall' : ciChar 'W' c1 = true ∧ ciChar 'I' c2 = true ∧
      ciChar 'T' c3 = true ∧ ciChar 'H' c4 = true := by
    simpa [List.all_cons] using hall
  have hw1 := wordChar_of_isIdChar
    (isIdChar_of_ciChar_upper (by decide) (by decide) hall'.1)
  have hw2 := wordChar_of_isIdChar
    (isIdChar_of_ciChar_upper (by decide) (by decide) hall'.2.1)
  have hw3 := wordChar_of_isIdChar
    (isIdChar_of_ciChar_upper (by decide) (by decide) hall'.2.2.1)
  have hw4 := wordChar_of_isIdChar
    (isIdChar_of_ciChar_upper (by decide) (by decide) hall'.2.2.2)
  have hrest : r2 = rest := by simpa using hr
  subst hrest
  have ht : r2.takeWhile wordChar = [] := by
    rw [hws]
    exact takeWhile_nil_of_ws hcws
  have htw : (c1 :: c2 :: c3 :: c4 :: r2).takeWhile wordChar =
      [c1, c2, c3, c4] := by
    simp [List.takeWhile_cons, hw1, hw2, hw3, hw4, ht]
  constructor
  · rw [htw]
    simp [ciEqList, ciChar_symm c1 'W' ▸ hall'.1,
      ciChar_symm c2 'I' ▸ hall'.2.1, ciChar_symm c3 'T' ▸ hall'.2.2.1,
      ciChar_symm c4 'H' ▸ hall'.2.2.2]
  · simp [List.dropWhile_cons, hw1, hw2, hw3, hw4,
      dropWhile_eq_self_of_takeWhile_nil ht]

theorem license_idstring_ok {i r v : List Char}
    (h : license_idstring i = .ok r v) :
    (v = i.takeWhile isIdChar ∧ r = i.dropWhile isIdChar ∧ v ≠ [] ∧
        (∀ c t, r = c :: t → c ≠ '+')) ∨
      (v = i.takeWhile isIdChar ++ ['+'] ∧
        i.dropWhile isIdChar = '+' :: r ∧ i.takeWhile isIdChar ≠ []) := by
  unfold license_idstring at h
  obtain ⟨r1, w, hid, h2⟩ := PRes.bind_ok h
  obtain ⟨hw, hr1, hne⟩ := takeWhile1_ok hid
  cases r1 with
  | nil =>
    simp only [charStreaming, completeP, optP] at h2
    obtain ⟨hh1, hh2⟩ := PRes.ok.inj h2
    exact .inl ⟨by rw [← hh2, hw], by rw [← hh1, hr1], by rw [← hh2]; exact hne,
      by intro c t hct; rw [← hh1] at hct; exact absurd hct (by simp)⟩
  | cons c t =>
    by_cases hc : c = '+'
    · subst hc
      simp only [charStreaming, if_pos rfl, completeP, optP] at h2
      obtain ⟨hh1, hh2⟩ := PRes.ok.inj h2
      refine .inr ⟨by rw [← hh2, hw], ?_, by rw [← hw]; exact hne⟩
      rw [← hr1, ← hh1]
    · rw [charStreaming_err_of_ne hc] at h2
      simp only [completeP, optP] at h2
      obtain ⟨hh1, hh2⟩ := PRes.ok.inj h2
      exact .inl ⟨by rw [← hh2, hw], by rw [← hh1, hr1], by rw [← hh2]; exact hne,
        by intro c' t' hct; rw [← hh1] at hct;
           obtain ⟨he1, _⟩ := List.cons.inj hct; rw [← he1]; exact hc⟩

theorem document_ref_ok {i r v : List Char} (h : document_ref i = .ok r v) :
    i = "DocumentRef-".toList ++ v ++ ':' :: r ∧ v ≠ [] ∧
      v.all isIdChar = true := by
  unfold document_ref at h
  obtain ⟨r1, _, htag, h2⟩ := PRes.bind_ok h
  obtain ⟨hi, _⟩ := tagP_ok htag
  obtain ⟨r2, d, hid, h3⟩ := PRes.bind_ok h2
  obtain ⟨hd, hr2, hdne⟩ := takeWhile1_ok hid
  obtain ⟨r3, _, hch, h4⟩ := PRes.bind_ok h3
  have hr2' := charStreaming_ok hch
  obtain ⟨hh1, hh2⟩ := PRes.ok.inj h4
  have hsplit : r1 = d ++ r2 := by
    rw [hd, hr2]; exact (List.takeWhile_append_dropWhile _ _).symm
  refine ⟨?_, by rw [← hh2]; exact hdne,
    by rw [← hh2, hd]; exact all_takeWhile _ _⟩
  rw [hi, hsplit, hr2', ← hh2, ← hh1]
  simp

theorem licenseRefTail_mk {x : List Char} (hx1 : x ≠ [])
    (hx2 : x.all isIdChar = true) :
    licenseRefTail ("LicenseRef-".toList ++ x) = true := by
  unfold licenseRefTail
  rw [Bool.and_eq_true]
  constructor
  · rw [List.isPrefixOf_iff_prefix]
    exact List.prefix_append _ _
  · have hdrop : ("LicenseRef-".toList ++ x).drop 11 = x := by
      have : ("LicenseRef-".toList).length = 11 := rfl
      rw [← this, List.drop_left]
    rw [hdrop]
    simp [isIdStrB, hx2, List.isEmpty_iff, hx1]

theorem isAtomWord_licref_none {x : List Char} (hx1 : x ≠ [])
    (hx2 : x.all isIdChar = true) :
    isAtomWord ("LicenseRef-".toList ++ x) = true := by
  unfold isAtomWord isLicenseRefWord
  rw [licenseRefTail_mk hx1 hx2]
  simp

theorem isAtomWord_licref_doc {dv x : List Char} (hd1 : dv ≠ [])
    (hd2 : dv.all isIdChar = true) (hx1 : x ≠ [])
    (hx2 : x.all isIdChar = true) :
    isAtomWord ("DocumentRef-".toList ++ dv ++ ':' ::
      ("LicenseRef-".toList ++ x)) = true := by
  unfold isAtomWord isLicenseRefWord
  apply Bool.or_eq_true_iff.mpr; left
  apply Bool.or_eq_true_iff.mpr; right
  rw [Bool.and_eq_true]
  constructor
  · rw [List.isPrefixOf_iff_prefix, List.append_assoc]
    exact List.prefix_append _ _
  · have hdrop : ("DocumentRef-".toList ++ dv ++ ':' ::
        ("LicenseRef-".toList ++ x)).drop 12 =
        dv ++ ':' :: ("LicenseRef-".toList ++ x) := by
      have h12 : ("DocumentRef-".toList).length = 12 := rfl
      rw [List.append_assoc, ← h12, List.drop_left]
    have htk : (dv ++ ':' :: ("LicenseRef-".toList ++ x)).takeWhile isIdChar
        = dv := by
      rw [takeWhile_append_all _ hd2, List.takeWhile_cons]
      simp [show isIdChar ':' = false from by decide]
    have hdk : (dv ++ ':' :: ("LicenseRef-".toList ++ x)).drop dv.length =
        ':' :: ("LicenseRef-".toList ++ x) := List.drop_left _ _
    rw [hdrop, htk, hdk]
    simp [List.isEmpty_iff, hd1]
    exact licenseRefTail_mk hx1 hx2

theorem isAtomWord_idstr {x : List Char} (hx1 : x ≠ [])
    (hx2 : x.all isIdChar = true) : isAtomWord x = true := by
  unfold isAtomWord isLicenseIdStrB isIdStrB
  simp [hx2, List.isEmpty_iff, hx1]

theorem isAtomWord_idstr_plus {x : List Char} (hx1 : x ≠ [])
    (hx2 : x.all isIdChar = true) : isAtomWord (x ++ ['+']) = true := by
  unfold isAtomWord isLicenseIdStrB
  apply Bool.or_eq_true_iff.mpr; right
  apply Bool.or_eq_true_iff.mpr; right
  rw [List.getLast?_concat]
  show isIdStrB (x ++ ['+']).dropLast = true
  rw [List.dropLast_concat]
  simp [isIdStrB, hx2, List.isEmpty_iff, hx1]

theorem license_ref_ok {i r : List Char} {dx : Option (List Char) × List Char}
    (h : license_ref i = .ok r dx) :
    ∃ pre, i = pre ++ (dx.2 ++ r) ∧ dx.2 ≠ [] ∧ dx.2.all isIdChar = true ∧
      (∀ c t, r = c :: t → isIdChar c = false) ∧
      renderSimple ⟨dx.2, dx.1, true⟩ = pre ++ dx.2 ∧
      pre.all wordChar = true ∧
      isAtomWord (pre ++ dx.2) = true := by
  unfold license_ref at h
  obtain ⟨r1, dopt, hopt, h2⟩ := PRes.bind_ok h
  obtain ⟨r2, _, htag, h3⟩ := PRes.bind_ok h2
  obtain ⟨hr1, _⟩ := tagP_ok htag
  obtain ⟨r3, x, hid, h4⟩ := PRes.bind_ok h3
  obtain ⟨hx, hr3, hxne⟩ := takeWhile1_ok hid
  obtain ⟨hh1, hh2⟩ := PRes.ok.inj h4
  have hdx2 : dx.2 = x := by rw [← hh2]
  have hdx1 : dx.1 = dopt := by rw [← hh2]
  have hmax : ∀ c t, r = c :: t → isIdChar c = false := by
    intro c t hct
    rw [← hh1, hr3] at hct
    exact head_dropWhile_false hct
  have hsplit : r2 = x ++ r := by
    rw [hx, ← hh1, hr3]
    exact (List.takeWhile_append_dropWhile _ _).symm
  have hxall : x.all isIdChar = true := by rw [hx]; exact all_takeWhile _ _
  rcases optP_ok hopt with ⟨dv, hdoc, hdv⟩ | ⟨_, hr1i, hdnone⟩
  · obtain ⟨hidoc, hdvne, hdvall⟩ := document_ref_ok hdoc
    refine ⟨"DocumentRef-".toList ++ dv ++ ':' :: "LicenseRef-".toList,
      ?_, by rw [hdx2]; exact hxne, by rw [hdx2]; exact hxall, hmax, ?_, ?_, ?_⟩
    · rw [hidoc, hr1, hsplit, hdx2]
      simp
    · rw [hdx2, hdx1, hdv]
      simp [renderSimple]
    · have hdvw : dv.all wordChar = true := by
        rw [List.all_eq_true] at hdvall ⊢
        exact fun c hc => wordChar_of_isIdChar (hdvall c hc)
      simp [List.all_append, List.all_cons, hdvw]
      exact ⟨by decide, by decide, by decide⟩
    · rw [hdx2]
      have := isAtomWord_licref_doc hdvne hdvall hxne hxall
      simpa [List.append_assoc] using this
  · refine ⟨"LicenseRef-".toList, ?_, by rw [hdx2]; exact hxne,
      by rw [hdx2]; exact hxall, hmax, ?_, by decide, ?_⟩
    · rw [← hr1i, hr1, hsplit, hdx2]
    · rw [hdx2, hdx1, hdnone]
      simp [renderSimple]
    · rw [hdx2]
      exact isAtomWord_licref_none hxne hxall

theorem simple_license_shape {i rem : List Char} {leaf : SimpleExpression}
    (h : simple_license_expression i = .ok rem leaf) :
    ∃ p, i = p ++ rem ∧ renderSimple leaf = p ∧ p ≠ [] ∧
      p.all wordChar = true ∧ isAtomWord p = true ∧
      (∀ c t, rem = c :: t → isIdChar c = true →
        ∃ q, p = q ++ ['+'] ∧ q.all isIdChar = true) := by
  unfold simple_license_expression at h
  rcases altP_ok h with href | ⟨_, hids⟩
  · obtain ⟨dx, hlr, hleaf⟩ := PRes.mapv_ok href
    obtain ⟨pre, hi, hxne, hxall, hmax, hrend, hprew, hatom⟩ :=
      license_ref_ok hlr
    refine ⟨pre ++ dx.2, by rw [hi, List.append_assoc], ?_, ?_, ?_, hatom, ?_⟩
    · rw [hleaf]; exact hrend
    · simp [hxne]
    · rw [List.all_append, hprew]
      simp only [Bool.true_and]
      rw [List.all_eq_true] at hxall ⊢
      exact fun c hc => wordChar_of_isIdChar (hxall c hc)
    · intro c t hct hcid
      exact absurd (hmax c t hct) (by simp [hcid])
  · obtain ⟨w, hli, hleaf⟩ := PRes.mapv_ok hids
    rcases license_idstring_ok hli with
      ⟨hw, hrem, hwne, _⟩ | ⟨hw, hdw, hwne⟩
    · refine ⟨w, ?_, by rw [hleaf]; simp [renderSimple], hwne, ?_, ?_, ?_⟩
      · rw [hw, hrem]
        exact (List.takeWhile_append_dropWhile _ _).symm
      · rw [hw, List.all_eq_true]
        exact fun c hc => wordChar_of_isIdChar (List.mem_takeWhile_imp hc)
      · exact isAtomWord_idstr hwne (by rw [hw]; exact all_takeWhile _ _)
      · intro c t hct hcid
        rw [hrem] at hct
        exact absurd (head_dropWhile_false hct) (by simp [hcid])
    · have hiw : i = w ++ rem := by
        rw [hw, List.append_assoc]
        simp only [List.singleton_append]
        rw [← hdw]
        exact (List.takeWhile_append_dropWhile _ _).symm
      have htwall : (i.takeWhile isIdChar).all isIdChar = true :=
        all_takeWhile _ _
      refine ⟨w, hiw, by rw [hleaf]; simp [renderSimple], ?_, ?_, ?_, ?_⟩
      · rw [hw]; simp
      · rw [hw, List.all_append, Bool.and_eq_true]
        constructor
        · rw [List.all_eq_true]
          intro c hc
          exact wordChar_of_isIdChar (List.mem_takeWhile_imp hc)
        · decide
      · rw [hw]
        exact isAtomWord_idstr_plus hwne htwall
      · intro c t _ _
        exact ⟨i.takeWhile isIdChar, hw, htwall⟩

theorem isIdStrB_false_of_plus_mem {s : List Char} (h : '+' ∈ s) :
    isIdStrB s = false := by
  unfold isIdStrB
  have : s.all isIdChar = false := by
    cases hall : s.all isIdChar
    · rfl
    · rw [List.all_eq_true] at hall
      exact absurd (hall '+' h) (by decide)
  simp [this]

theorem isAtomWord_false_of_plus {q : List Char} {c : Char} {t : List Char}
    (hq : q.all isIdChar = true) (_hc : isIdChar c = true) :
    isAtomWord (q ++ '+' :: c :: t) = false := by
  have hqpre : q <+: q ++ '+' :: c :: t := List.prefix_append _ _
  unfold isAtomWord
  rw [Bool.or_eq_false_iff]
  constructor
  · -- not a license reference word
    unfold isLicenseRefWord
    rw [Bool.or_eq_false_iff]
    constructor
    · -- not `LicenseRef-<idstring>`
      unfold licenseRefTail
      by_cases hpre : "LicenseRef-".toList.isPrefixOf (q ++ '+' :: c :: t)
      · rw [hpre, Bool.true_and]
        rw [List.isPrefixOf_iff_prefix] at hpre
        obtain ⟨s, hs⟩ := hpre
        have hd : (q ++ '+' :: c :: t).drop 11 = s := by
          rw [← hs]
          have h11 : ("LicenseRef-".toList).length = 11 := rfl
          rw [← h11, List.drop_left]
        rw [hd]
        rcases List.prefix_or_prefix_of_prefix hqpre
            (hs ▸ List.prefix_append _ _) with hqp | hpq
        · obtain ⟨u, hu⟩ := hqp
          rcases hu' : u with _ | ⟨u0, u''⟩
          · rw [hu'] at hu
            simp only [List.append_nil] at hu
            have hs' : s = '+' :: c :: t := by
              apply @List.append_cancel_left _ "LicenseRef-".toList _ _
              rw [hs, hu]
            rw [hs']
            exact isIdStrB_false_of_plus_mem (by simp)
          · exfalso
            rw [hu'] at hu
            have h2 : q ++ (u0 :: (u'' ++ s)) = q ++ '+' :: c :: t := by
              rw [← hs, ← hu]
              simp
            have h3 := List.append_cancel_left h2
            have hu0 : u0 = '+' := (List.cons.inj h3).1
            have hmem : '+' ∈ "LicenseRef-".toList := by
              rw [← hu, hu0]
              simp
            exact absurd hmem (by decide)
        · obtain ⟨u', hu'⟩ := hpq
          have hs' : s = u' ++ '+' :: c :: t := by
            apply @List.append_cancel_left _ "LicenseRef-".toList _ _
            rw [hs, ← hu']
            simp
          rw [hs']
          exact isIdStrB_false_of_plus_mem (by simp)
      · have hpf : "LicenseRef-".toList.isPrefixOf (q ++ '+' :: c :: t) =
            false := by
          rw [Bool.eq_false_iff]
          exact hpre
        rw [hpf]
        simp
    · -- not `DocumentRef-…:LicenseRef-…`
      by_cases hpre : "DocumentRef-".toList.isPrefixOf (q ++ '+' :: c :: t)
      · rw [hpre, Bool.true_and]
        rw [List.isPrefixOf_iff_prefix] at hpre
        obtain ⟨s, hs⟩ := hpre
        have hd : (q ++ '+' :: c :: t).drop 12 = s := by
          rw [← hs]
          have h12 : ("DocumentRef-".toList).length = 12 := rfl
          rw [← h12, List.drop_left]
        rw [hd]
        rcases List.prefix_or_prefix_of_prefix hqpre
            (hs ▸ List.prefix_append _ _) with hqp | hpq
        · obtain ⟨u, hu⟩ := hqp
          rcases hu' : u with _ | ⟨u0, u''⟩
          · rw [hu'] at hu
            simp only [List.append_nil] at hu
            have hs' : s = '+' :: c :: t := by
              apply @List.append_cancel_left _ "DocumentRef-".toList _ _
              rw [hs, hu]
            rw [hs']
            simp [List.takeWhile_cons,
              show isIdChar '+' = false from by decide]
          · exfalso
            rw [hu'] at hu
            have h2 : q ++ (u0 :: (u'' ++ s)) = q ++ '+' :: c :: t := by
              rw [← hs, ← hu]
              simp
            have h3 := List.append_cancel_left h2
            have hu0 : u0 = '+' := (List.cons.inj h3).1
            have hmem : '+' ∈ "DocumentRef-".toList := by
              rw [← hu, hu0]
              simp
            exact absurd hmem (by decide)
        · obtain ⟨u', hu'⟩ := hpq
          have hu'all : u'.all isIdChar = true := by
            have : ("DocumentRef-".toList ++ u').all isIdChar = true := by
              rw [hu']
              exact hq
            rw [List.all_append, Bool.and_eq_true] at this
            exact this.2
          have hs' : s = u' ++ '+' :: c :: t := by
            apply @List.append_cancel_left _ "DocumentRef-".toList _ _
            rw [hs, ← hu']
            simp
          rw [hs']
          have htk : (u' ++ '+' :: c :: t).takeWhile isIdChar = u' := by
            rw [takeWhile_append_all _ hu'all, List.takeWhile_cons]
            simp [show isIdChar '+' = false from by decide]
          rw [htk, List.drop_left]
          simp
      · have hpf : "DocumentRef-".toList.isPrefixOf (q ++ '+' :: c :: t) =
            false := by
          rw [Bool.eq_false_iff]
          exact hpre
        rw [hpf]
        simp
  · -- not a license id string
    unfold isLicenseIdStrB
    rw [Bool.or_eq_false_iff]
    constructor
    · exact isIdStrB_false_of_plus_mem (by simp)
    · have hne : '+' :: c :: t ≠ [] := by simp
      split
      · rw [List.dropLast_append_of_ne_nil _ hne,
          List.dropLast_cons_of_ne_nil (by simp)]
        exact isIdStrB_false_of_plus_mem (by simp)
      · rfl

theorem simple_lockstep {i rem : List Char} {leaf : SimpleExpression}
    (hp : simple_license_expression i = .ok rem leaf) :
    (rem.takeWhile wordChar = [] ∧
      canonAtom i = some (renderSimple leaf, rem)) ∨
    BadHead rem ∨
    (∃ c t, rem = c :: t ∧ isIdChar c = true ∧ canonAtom i = none) := by
  obtain ⟨p, hi, hrend, hpne, hpw, hatom, hplus⟩ := simple_license_shape hp
  have hdrop : i.drop p.length = rem := by rw [hi]; exact List.drop_left _ _
  rcases hrm : rem with _ | ⟨c, t⟩
  · left
    have hw : i.takeWhile wordChar = p := by
      rw [hi, hrm]
      simp only [List.append_nil]
      exact takeWhile_eq_self_of_all hpw
    refine ⟨rfl, ?_⟩
    unfold canonAtom
    rw [hw]
    simp [hatom, hdrop, hrend, hrm]
  · by_cases hcw : wordChar c = true
    · by_cases hcid : isIdChar c = true
      · obtain ⟨q, hpq, hqall⟩ := hplus c t hrm hcid
        right; right
        refine ⟨c, t, rfl, hcid, ?_⟩
        have hqw : q.all wordChar = true := by
          rw [List.all_eq_true] at hqall ⊢
          exact fun x hx => wordChar_of_isIdChar (hqall x hx)
        have hw : i.takeWhile wordChar =
            q ++ '+' :: c :: t.takeWhile wordChar := by
          rw [hi, hrm, hpq, List.append_assoc]
          rw [takeWhile_append_all _ hqw]
          simp only [List.singleton_append, List.takeWhile_cons]
          simp [show wordChar '+' = true from by decide, hcw]
        unfold canonAtom
        rw [hw, isAtomWord_false_of_plus hqall hcid]
        simp
      · right; left
        exact ⟨c, t, rfl, hcw, by simpa using hcid⟩
    · left
      have hct : (c :: t).takeWhile wordChar = [] := by
        rw [List.takeWhile_cons]
        simp [show wordChar c = false by simpa using hcw]
      have hw : i.takeWhile wordChar = p := by
        rw [hi, hrm, takeWhile_append_all _ hpw, hct, List.append_nil]
      refine ⟨by rw [hct], ?_⟩
      unfold canonAtom
      rw [hw]
      simp [hatom, hdrop, hrend, hrm]

theorem canonWith_none_of_atom {i : List Char} (h : canonAtom i = none) :
    canonWith i = none := by
  unfold canonWith
  rw [h]

theorem multispace0_eq (i : List Char) :
    multispace0 i = i.dropWhile isMultispace := rfl

theorem headIsWs_cons {c : Char} {t : List Char} :
    headIsWs (c :: t) = isMultispace c := rfl

theorem with_lockstep {i rem : List Char} {v : Expression}
    (hp : with_expression i = .ok rem v) :
    canonWith i = some (render v, rem) ∨ BadHead rem := by
  unfold with_expression at hp
  obtain ⟨remA, leaf, hsim, hp2⟩ := PRes.bind_ok hp
  obtain ⟨rA2, _, hms1, hp3⟩ := PRes.bind_ok hp2
  obtain ⟨⟨cA, tA, hremA, hcA⟩, hrA2⟩ := multispace1_ok hms1
  obtain ⟨rA3, u, htag, hp4⟩ := PRes.bind_ok hp3
  obtain ⟨rA4, _, hms2, hp5⟩ := PRes.bind_ok hp4
  obtain ⟨⟨cB, tB, hrA3, hcB⟩, hrA4⟩ := multispace1_ok hms2
  obtain ⟨remE, exc, hid, hp6⟩ := PRes.bind_ok hp5
  obtain ⟨hexc, hremE, hexcne⟩ := takeWhile1_ok hid
  obtain ⟨hh1, hh2⟩ := PRes.ok.inj hp6
  -- the atom must be aligned, since whitespace follows it
  rcases simple_lockstep hsim with ⟨htw0, hAtom⟩ | hbad | ⟨c, t, hct, hcid, _⟩
  · -- canon follows the same path step by step
    have hrender : render v = renderSimple leaf ++ " WITH ".toList ++ exc := by
      rw [← hh2]
      rfl
    have hciW := with_tag_ok_ws htag hrA3 hcB
    unfold canonWith
    rw [hAtom]
    dsimp only
    have hws0 : headIsWs remA = true := by rw [hremA, headIsWs_cons, hcA]
    rw [if_pos hws0]
    have hmsA : multispace0 remA = rA2 := by rw [multispace0_eq, ← hrA2]
    rw [hmsA]
    unfold canonWithKw
    rw [if_pos hciW.1]
    rw [drop_length_takeWhile, ← hciW.2]
    unfold canonWithWs2
    have hws1 : headIsWs rA3 = true := by rw [hrA3, headIsWs_cons, hcB]
    rw [if_pos hws1]
    have hmsB : multispace0 rA3 = rA4 := by rw [multispace0_eq, ← hrA4]
    rw [hmsB]
    unfold canonWithExc
    have hsplitE : rA4 = rA4.takeWhile isIdChar ++ rA4.dropWhile isIdChar :=
      (List.takeWhile_append_dropWhile _ _).symm
    rcases hre : rA4.dropWhile isIdChar with _ | ⟨cE, tE⟩
    · -- the exception word runs to the end of this region
      have hall : rA4.all isIdChar = true := by
        conv_lhs => rw [hsplitE]
        rw [hre, List.append_nil]
        exact all_takeWhile _ _
      have hwAll : rA4.all wordChar = true := by
        rw [List.all_eq_true] at hall ⊢
        exact fun x hx => wordChar_of_isIdChar (hall x hx)
      have htid : rA4.takeWhile isIdChar = rA4 := takeWhile_eq_self_of_all hall
      have htww : rA4.takeWhile wordChar = rA4 := takeWhile_eq_self_of_all hwAll
      left
      rw [if_pos (by rw [htww, ← htid, ← hexc]
                     simp [isIdStrB, List.isEmpty_iff, hexcne,
                       hexc ▸ all_takeWhile isIdChar rA4])]
      rw [htww]
      have hrem0 : rem = [] := by
        rw [← hh1, hremE, hre]
      rw [hrender, hrem0, hexc, htid]
      have : rA4.drop rA4.length = [] := by simp
      rw [this]
    · have hcidE : isIdChar cE = false := head_dropWhile_false hre
      by_cases hcwE : wordChar cE = true
      · right
        rw [← hh1, hremE, hre]
        exact ⟨cE, tE, rfl, hcwE, hcidE⟩
      · left
        have htww : rA4.takeWhile wordChar = rA4.takeWhile isIdChar := by
          conv_lhs => rw [hsplitE]
          rw [hre, takeWhile_append_all _ (by
            have := all_takeWhile isIdChar rA4
            rw [List.all_eq_true] at this ⊢
            exact fun x hx => wordChar_of_isIdChar (this x hx))]
          rw [List.takeWhile_cons]
          simp [show wordChar cE = false by simpa using hcwE]
        rw [if_pos (by rw [htww, ← hexc]
                       simp [isIdStrB, List.isEmpty_iff, hexcne,
                         hexc ▸ all_takeWhile isIdChar rA4])]
        rw [htww]
        have hdropE : rA4.drop (rA4.takeWhile isIdChar).length =
            rA4.dropWhile isIdChar := drop_length_takeWhile _ _
        rw [hdropE, hrender, ← hexc, ← hremE, hh1]
  · -- impossible: the atom is followed by whitespace, not a word character
    exfalso
    obtain ⟨c, t, hct, hcw, _⟩ := hbad
    rw [hremA] at hct
    obtain ⟨he1, _⟩ := List.cons.inj hct
    rw [← he1] at hcw
    rw [wordChar_false_of_ws hcA] at hcw
    exact absurd hcw (by simp)
  · exfalso
    rw [hremA] at hct
    obtain ⟨he1, _⟩ := List.cons.inj hct
    rw [← he1] at hcid
    have hcw := wordChar_of_isIdChar hcid
    rw [wordChar_false_of_ws hcA] at hcw
    exact absurd hcw (by simp)

theorem render_fold (ps : List (Oper × Expression)) :
    ∀ initial : Expression,
      render (fold_exprs initial ps) = render initial ++ renderTail ps := by
  induction ps with
  | nil =>
    intro initial
    simp [fold_exprs, renderTail]
  | cons p rest ih =>
    intro initial
    obtain ⟨op, e⟩ := p
    cases op
    · show render (fold_exprs (Expression.And initial e) rest) = _
      rw [ih]
      simp [render, renderTail]
    · show render (fold_exprs (Expression.Or initial e) rest) = _
      rw [ih]
      simp [render, renderTail]

theorem PRes.bind_err {α β : Type} {r : PRes α} {f : List Char → α → PRes β}
    (h : PRes.bind r f = .err) :
    r = .err ∨ ∃ rest v, r = .ok rest v ∧ f rest v = .err := by
  cases r with
  | ok r1 v1 => exact .inr ⟨r1, v1, rfl, h⟩
  | err => exact .inl rfl
  | incomplete => exact absurd h (by simp [PRes.bind])
  | fuelOut => exact absurd h (by simp [PRes.bind])

theorem takeWhile_ne_nil_head {p : Char → Bool} {l : List Char}
    (h : l.takeWhile p ≠ []) : ∃ c t, l = c :: t ∧ p c = true := by
  cases l with
  | nil => simp at h
  | cons c t =>
    cases hc : p c
    · rw [List.takeWhile_cons, hc] at h
      simp at h
    · exact ⟨c, t, rfl, hc⟩

theorem ms0_eq_self_of_not_ws {c : Char} {t : List Char}
    (h : isMultispace c = false) : multispace0 (c :: t) = c :: t := by
  rw [multispace0_eq, List.dropWhile_cons, h]
  simp

theorem isAtomWord_nil : isAtomWord ([] : List Char) = false := by decide

theorem wordChar_ne_lparen {c : Char} (h : wordChar c = true) : c ≠ '(' := by
  intro he
  rw [he] at h
  exact absurd h (by decide)

theorem wordChar_ne_rparen {c : Char} (h : wordChar c = true) : c ≠ ')' := by
  intro he
  rw [he] at h
  exact absurd h (by decide)

theorem ciChar_ne_of_lower_ne {k1 k2 c : Char} (h1 : ciChar k1 c = true)
    (hk : k1.toLower ≠ k2.toLower) : ciChar k2 c = false := by
  unfold ciChar at h1 ⊢
  rw [decide_eq_true_eq] at h1
  cases h2 : decide (k2.toLower = c.toLower)
  · rfl
  · rw [decide_eq_true_eq] at h2
    exact absurd (h1.trans h2.symm) hk

theorem ciChar_upper_false_of_not_idchar {k c : Char} (h65 : 65 ≤ k.toNat)
    (h90 : k.toNat ≤ 90) (hc : isIdChar c = false) : ciChar k c = false := by
  cases hci : ciChar k c
  · rfl
  · rw [isIdChar_of_ciChar_upper h65 h90 hci] at hc
    exact absurd hc (by simp)

theorem tagNoCase_err_head {k : Char} {kt : List Char} {c : Char}
    {t : List Char} (hc : ciChar k c = false) :
    tagNoCase (k :: kt) (c :: t) = .err := by
  have hnot : ¬((k :: kt).length ≤ (c :: t).length ∧
      (List.zip (k :: kt) ((c :: t).take (k :: kt).length)).all
        (fun p => ciChar p.1 p.2) = true) := by
    rintro ⟨-, hall⟩
    simp only [List.length_cons, List.take_succ_cons, List.zip_cons_cons,
      List.all_cons, Bool.and_eq_true] at hall
    exact absurd hall.1 (by simp [hc])
  unfold tagNoCase
  rw [if_neg hnot]

theorem tagNoCase_AND_err {c : Char} {t : List Char}
    (hc : ciChar 'A' c = false) :
    tagNoCase "AND".toList (c :: t) = .err := by
  rw [show ("AND".toList : List Char) = 'A' :: "ND".toList from rfl]
  exact tagNoCase_err_head hc

theorem tagNoCase_OR_err {c : Char} {t : List Char}
    (hc : ciChar 'O' c = false) :
    tagNoCase "OR".toList (c :: t) = .err := by
  rw [show ("OR".toList : List Char) = 'O' :: "R".toList from rfl]
  exact tagNoCase_err_head hc

theorem termManyP_stop {n : Nat} {s rem : List Char}
    {ps : List (Oper × Expression)} (hs : tagNoCase "AND".toList s = .err)
    (h : termManyP n s = .ok rem ps) : rem = s ∧ ps = [] := by
  cases n with
  | zero => exact PRes.noConfusion h
  | succ n =>
    unfold termManyP at h
    rw [hs] at h
    dsimp only at h
    obtain ⟨h1, h2⟩ := PRes.ok.inj h
    exact ⟨h1.symm, h2.symm⟩

theorem exprManyP_stop {n : Nat} {s rem : List Char}
    {ps : List (Oper × Expression)} (hs : tagNoCase "OR".toList s = .err)
    (h : exprManyP n s = .ok rem ps) : rem = s ∧ ps = [] := by
  cases n with
  | zero => exact PRes.noConfusion h
  | succ n =>
    unfold exprManyP at h
    rw [hs] at h
    dsimp only at h
    obtain ⟨h1, h2⟩ := PRes.ok.inj h
    exact ⟨h1.symm, h2.symm⟩

theorem canonExprMany_stuck {m : Nat} {s o2 r2 : List Char}
    (hst : ciEqList (s.takeWhile wordChar) "OR".toList = false)
    (h : canonExprMany m s = some (o2, r2)) : o2 = [] ∧ r2 = s := by
  cases m with
  | zero => exact Option.noConfusion h
  | succ m =>
    unfold canonExprMany at h
    rw [if_neg (by rw [hst]; simp)] at h
    simp only [Option.some.injEq, Prod.mk.injEq] at h
    exact ⟨h.1.symm, h.2.symm⟩

theorem TStop_of_BadHead {r : List Char} (h : BadHead r) : TStop r := by
  obtain ⟨c, t, hct, hw, hid⟩ := h
  exact ⟨c, t, hct, hw,
    ciChar_upper_false_of_not_idchar (by decide) (by decide) hid⟩

theorem PStop_of_TStop {r : List Char} (h : TStop r) : PStop r := by
  obtain ⟨c, t, hct, hw, _⟩ := h
  exact ⟨c, t, hct, hw⟩

theorem ciChar_A_head_of_ciEq_AND {i : List Char}
    (h : ciEqList (i.takeWhile wordChar) "AND".toList = true) :
    ∃ c t, i = c :: t ∧ wordChar c = true ∧ ciChar 'A' c = true := by
  have hne : i.takeWhile wordChar ≠ [] := by
    intro h0
    rw [h0] at h
    exact absurd h (by decide)
  obtain ⟨c, t, hct, hwc⟩ := takeWhile_ne_nil_head hne
  have htw : i.takeWhile wordChar = c :: t.takeWhile wordChar := by
    rw [hct, List.takeWhile_cons, hwc]
    simp
  rw [htw, show ("AND".toList : List Char) = 'A' :: "ND".toList from rfl] at h
  obtain ⟨h1, -⟩ := ciEqList_cons_inv h
  refine ⟨c, t, hct, hwc, ?_⟩
  rw [ciChar_symm]
  exact h1

theorem TStop_of_ciEq_AND {i : List Char}
    (h : ciEqList (i.takeWhile wordChar) "AND".toList = true) : TStop i := by
  obtain ⟨c, t, hct, hwc, hA⟩ := ciChar_A_head_of_ciEq_AND h
  exact ⟨c, t, hct, hwc, ciChar_ne_of_lower_ne hA (by decide)⟩

theorem PStop_of_ciEq_OR {i : List Char}
    (h : ciEqList (i.takeWhile wordChar) "OR".toList = true) : PStop i := by
  have hne : i.takeWhile wordChar ≠ [] := by
    intro h0
    rw [h0] at h
    exact absurd h (by decide)
  obtain ⟨c, t, hct, hwc⟩ := takeWhile_ne_nil_head hne
  exact ⟨c, t, hct, hwc⟩

theorem multispace1_ok_of_headIsWs {s : List Char} (h : headIsWs s = true) :
    multispace1 s = .ok (multispace0 s) () := by
  cases s with
  | nil => exact absurd h (by decide)
  | cons c t =>
    rw [headIsWs_cons] at h
    unfold multispace1
    dsimp only
    rw [if_pos h, multispace0_eq]

theorem idstring_ok_of_isIdStrB {s : List Char}
    (h : isIdStrB (s.takeWhile wordChar) = true) :
    idstring s = .ok (s.dropWhile isIdChar) (s.takeWhile isIdChar) := by
  have hne : s.takeWhile wordChar ≠ [] := by
    intro h0
    rw [h0] at h
    exact absurd h (by decide)
  obtain ⟨c, t, hct, hwc⟩ := takeWhile_ne_nil_head hne
  have hcid : isIdChar c = true := by
    unfold isIdStrB at h
    rw [Bool.and_eq_true, List.all_eq_true] at h
    apply h.2
    rw [hct, List.takeWhile_cons, hwc]
    simp
  have hne2 : (s.takeWhile isIdChar).isEmpty = false := by
    rw [hct, List.takeWhile_cons, hcid]
    simp
  unfold idstring takeWhile1
  simp [hne2, drop_length_takeWhile]

theorem canonWith_some_inv {i : List Char} {o r : List Char}
    (h : canonWith i = some (o, r)) :
    ∃ w r0, canonAtom i = some (w, r0) ∧ headIsWs r0 = true ∧
      ciEqList ((multispace0 r0).takeWhile wordChar) "WITH".toList = true ∧
      headIsWs ((multispace0 r0).drop
        ((multispace0 r0).takeWhile wordChar).length) = true ∧
      isIdStrB ((multispace0 ((multispace0 r0).drop
        ((multispace0 r0).takeWhile wordChar).length)).takeWhile wordChar) =
        true := by
  unfold canonWith at h
  cases ha : canonAtom i with
  | none =>
    rw [ha] at h
    exact Option.noConfusion h
  | some p =>
    obtain ⟨w, r0⟩ := p
    rw [ha] at h
    dsimp only at h
    by_cases h0 : headIsWs r0 = true
    · rw [if_pos h0] at h
      unfold canonWithKw at h
      by_cases h1 : ciEqList ((multispace0 r0).takeWhile wordChar)
          "WITH".toList = true
      · rw [if_pos h1] at h
        unfold canonWithWs2 at h
        by_cases h2 : headIsWs ((multispace0 r0).drop
            ((multispace0 r0).takeWhile wordChar).length) = true
        · rw [if_pos h2] at h
          unfold canonWithExc at h
          by_cases h3 : isIdStrB ((multispace0 ((multispace0 r0).drop
              ((multispace0 r0).takeWhile wordChar).length)).takeWhile
                wordChar) = true
          · exact ⟨w, r0, rfl, h0, h1, h2, h3⟩
          · rw [if_neg h3] at h
            exact Option.noConfusion h
        · rw [if_neg h2] at h
          exact Option.noConfusion h
      · rw [if_neg h1] at h
        exact Option.noConfusion h
    · rw [if_neg h0] at h
      exact Option.noConfusion h

theorem with_expression_ok_of_canon {j rem_s : List Char}
    {leaf : SimpleExpression}
    (hsim : simple_license_expression j = .ok rem_s leaf)
    (h0 : headIsWs rem_s = true)
    (h1 : ciEqList ((multispace0 rem_s).takeWhile wordChar)
      "WITH".toList = true)
    (h2 : headIsWs ((multispace0 rem_s).drop
      ((multispace0 rem_s).takeWhile wordChar).length) = true)
    (h3 : isIdStrB ((multispace0 ((multispace0 rem_s).drop
      ((multispace0 rem_s).takeWhile wordChar).length)).takeWhile wordChar) =
      true) :
    ∃ rem2 v2, with_expression j = .ok rem2 v2 := by
  have hms1 : multispace1 rem_s = .ok (multispace0 rem_s) () :=
    multispace1_ok_of_headIsWs h0
  have htag := with_tag_of_ciEq h1
  have hdw : (multispace0 rem_s).drop
      ((multispace0 rem_s).takeWhile wordChar).length =
      (multispace0 rem_s).dropWhile wordChar := drop_length_takeWhile _ _
  rw [hdw] at h2 h3
  have hms2 : multispace1 ((multispace0 rem_s).dropWhile wordChar) =
      .ok (multispace0 ((multispace0 rem_s).dropWhile wordChar)) () :=
    multispace1_ok_of_headIsWs h2
  have hid := idstring_ok_of_isIdStrB h3
  refine ⟨(multispace0 ((multispace0 rem_s).dropWhile
      wordChar)).dropWhile isIdChar,
    Expression.With ⟨leaf, (multispace0 ((multispace0 rem_s).dropWhile
      wordChar)).takeWhile isIdChar⟩, ?_⟩
  unfold with_expression
  rw [hsim]
  dsimp only [PRes.bind]
  rw [hms1]
  dsimp only [PRes.bind]
  rw [htag.1]
  dsimp only [PRes.bind]
  rw [hms2]
  dsimp only [PRes.bind]
  rw [hid]

/-- The lockstep invariant between the parser of `parser.rs` and the
spec-side canonicalizer, at every fuel level: whenever a grammar level
succeeds in the parser and the corresponding canonicalizer level
succeeds, either the two consumed the same region and the canonical text
equals the rendering of the parsed tree, or one of them stops at a
position whose head character makes every enclosing complete parse or
complete canonicalization impossible. -/
theorem lockstep : ∀ n : Nat,
    (∀ m i rem v o r, factorP n i = .ok rem v →
      canonFactor m i = some (o, r) →
      (o = render v ∧ r = rem) ∨ BadHead rem) ∧
    (∀ m i rem ps o r, termManyP n i = .ok rem ps →
      canonTermMany m i = some (o, r) →
      (o = renderTail ps ∧ r = rem) ∨ StuckW r ∨ TStop rem) ∧
    (∀ m i rem v o r, termP n i = .ok rem v →
      canonTerm m i = some (o, r) →
      (o = render v ∧ r = rem) ∨ StuckW r ∨ TStop rem) ∧
    (∀ m i rem ps o r, exprManyP n i = .ok rem ps →
      canonExprMany m i = some (o, r) →
      (o = renderTail ps ∧ r = rem) ∨ StuckW r ∨ PStop rem) ∧
    (∀ m i rem v o r, exprP n i = .ok rem v →
      canonExpr m i = some (o, r) →
      (o = render v ∧ r = rem) ∨ StuckW r ∨ PStop rem) := by
  intro n
  induction n using Nat.strong_induction_on with
  | _ n ih =>
  cases n with
  | zero =>
    refine ⟨?_, ?_, ?_, ?_, ?_⟩ <;>
      · intro m i rem v o r hp hc
        exact PRes.noConfusion hp
  | succ n' =>
  obtain ⟨ihF, ihTM, ihT, ihEM, ihE⟩ := ih n' (Nat.lt_succ_self n')
  refine ⟨?_, ?_, ?_, ?_, ?_⟩
  -- factor level
  · intro m i rem v o r hp hc
    cases m with
    | zero => exact Option.noConfusion hc
    | succ m0 =>
    unfold factorP at hp
    unfold canonFactor at hc
    rcases altP_ok hp with hpw | ⟨hwerr, hp2⟩
    · -- parser took the WITH branch
      obtain ⟨rem_w, v0, hwith, hok⟩ := PRes.bind_ok hpw
      obtain ⟨hrem, hv⟩ := PRes.ok.inj hok
      rcases with_lockstep hwith with hcw | hbad
      · rw [hcw] at hc
        dsimp only at hc
        simp only [Option.some.injEq, Prod.mk.injEq] at hc
        left
        constructor
        · rw [← hc.1, ← hv]
        · rw [← hc.2, hrem]
      · right
        obtain ⟨cB, tB, hctB, hwB, hidB⟩ := hbad
        rw [← hrem, hctB,
          ms0_eq_self_of_not_ws (isMultispace_false_of_wordChar hwB)]
        exact ⟨cB, tB, rfl, hwB, hidB⟩
    · have hwith_err : with_expression (multispace0 i) = .err := by
        rcases PRes.bind_err hwerr with h | ⟨rest, vv, -, hfe⟩
        · exact h
        · exact PRes.noConfusion hfe
      rcases altP_ok hp2 with hps | ⟨hserr, hpp⟩
      · -- parser took the simple-expression branch
        obtain ⟨rem_s, leaf, hsim, hok⟩ := PRes.bind_ok hps
        obtain ⟨hrem, hv⟩ := PRes.ok.inj hok
        rcases hcw : canonWith (multispace0 i) with - | ⟨ow, rw2⟩
        · -- canon also skips the WITH branch
          rw [hcw] at hc
          dsimp only at hc
          rcases hca : canonAtom (multispace0 i) with - | ⟨oa, ra⟩
          · -- canon in the parenthesis branch: impossible, the input
            -- starts with a word character
            rw [hca] at hc
            dsimp only at hc
            obtain ⟨p, hi, hrend, hpne, hpw2, hatom, hplus⟩ :=
              simple_license_shape hsim
            rcases p with - | ⟨p0, pt⟩
            · exact absurd rfl hpne
            · have hw0 : wordChar p0 = true := by
                rw [List.all_cons, Bool.and_eq_true] at hpw2
                exact hpw2.1
              rw [hi] at hc
              simp only [List.cons_append] at hc
              split at hc
              · rename_i heq
                obtain ⟨he0, -⟩ := List.cons.inj heq
                exact absurd he0 (wordChar_ne_lparen hw0)
              · exact Option.noConfusion hc
          · rw [hca] at hc
            dsimp only at hc
            rcases simple_lockstep hsim with ⟨htw0, hAtom⟩ | hbad |
              ⟨c, t, hct, hcid, hnone⟩
            · have hae := hca.symm.trans hAtom
              simp only [Option.some.injEq, Prod.mk.injEq] at hae
              simp only [Option.some.injEq, Prod.mk.injEq] at hc
              left
              constructor
              · rw [← hc.1, hae.1, ← hv]
                rfl
              · rw [← hc.2, hae.2]
                exact hrem
            · right
              obtain ⟨cB, tB, hctB, hwB, hidB⟩ := hbad
              rw [← hrem, hctB,
                ms0_eq_self_of_not_ws (isMultispace_false_of_wordChar hwB)]
              exact ⟨cB, tB, rfl, hwB, hidB⟩
            · rw [hca] at hnone
              exact Option.noConfusion hnone
        · -- canon took the WITH branch although the parser's WITH failed
          rcases simple_lockstep hsim with ⟨htw0, hAtom⟩ | hbad |
            ⟨c, t, hct, hcid, hnone⟩
          · exfalso
            obtain ⟨w0, r0, hat, h0, h1, h2, h3⟩ := canonWith_some_inv hcw
            have hae := hat.symm.trans hAtom
            simp only [Option.some.injEq, Prod.mk.injEq] at hae
            rw [hae.2] at h0 h1 h2 h3
            obtain ⟨rem2, v2, hwok⟩ :=
              with_expression_ok_of_canon hsim h0 h1 h2 h3
            rw [hwok] at hwith_err
            exact PRes.noConfusion hwith_err
          · right
            obtain ⟨cB, tB, hctB, hwB, hidB⟩ := hbad
            rw [← hrem, hctB,
              ms0_eq_self_of_not_ws (isMultispace_false_of_wordChar hwB)]
            exact ⟨cB, tB, rfl, hwB, hidB⟩
          · exfalso
            obtain ⟨w0, r0, hat, -, -, -, -⟩ := canonWith_some_inv hcw
            rw [hnone] at hat
            exact Option.noConfusion hat
      · -- parser took the parenthesis branch
        have hsim_err : simple_license_expression (multispace0 i) = .err := by
          rcases PRes.bind_err hserr with h | ⟨rest, vv, -, hfe⟩
          · exact h
          · exact PRes.noConfusion hfe
        cases n' with
        | zero => exact PRes.noConfusion hpp
        | succ n'' =>
        unfold parensP at hpp
        obtain ⟨r1, u1, htag1, hpp2⟩ := PRes.bind_ok hpp
        obtain ⟨hms0i, -⟩ := tagP_ok htag1
        have hms0i' : multispace0 i = '(' :: r1 := by
          rw [hms0i]
          rfl
        obtain ⟨rem_e, e, hexpr, hpp3⟩ := PRes.bind_ok hpp2
        obtain ⟨r3, u3, htag3, hpp4⟩ := PRes.bind_ok hpp3
        obtain ⟨hrem_e, -⟩ := tagP_ok htag3
        have hrem_e' : rem_e = ')' :: r3 := by
          rw [hrem_e]
          rfl
        obtain ⟨hrem, hv⟩ := PRes.ok.inj hpp4
        have hcaN : canonAtom (multispace0 i) = none := by
          unfold canonAtom
          rw [hms0i', List.takeWhile_cons,
            show wordChar '(' = false from by decide]
          simp [isAtomWord_nil]
        have hcwN : canonWith (multispace0 i) = none :=
          canonWith_none_of_atom hcaN
        rw [hcwN] at hc
        dsimp only at hc
        rw [hcaN] at hc
        dsimp only at hc
        rw [hms0i'] at hc
        split at hc
        · rename_i heq
          obtain ⟨-, hre⟩ := List.cons.inj heq
          rw [← hre] at hc
          rcases hce : canonExpr m0 r1 with - | ⟨oE, rE⟩
          · rw [hce] at hc
            exact Option.noConfusion hc
          · rw [hce] at hc
            dsimp only at hc
            rcases (ih n'' (by omega)).2.2.2.2 m0 r1 rem_e e oE rE hexpr hce
              with ⟨hoE, hrE⟩ | hst | hpstop
            · rw [hrE, hrem_e'] at hc
              split at hc
              · rename_i heq2
                obtain ⟨-, hre2⟩ := List.cons.inj heq2
                simp only [Option.some.injEq, Prod.mk.injEq] at hc
                left
                constructor
                · rw [← hc.1, hoE, ← hv]
                  rfl
                · rw [← hc.2, ← hre2, hrem]
              · rename_i hne2
                exact absurd rfl (hne2 r3)
            · obtain ⟨cS, tS, hcts, hwS⟩ := takeWhile_ne_nil_head hst.1
              rw [hcts] at hc
              split at hc
              · rename_i heq2
                obtain ⟨he0, -⟩ := List.cons.inj heq2
                exact absurd he0 (wordChar_ne_rparen hwS)
              · exact Option.noConfusion hc
            · obtain ⟨cS, tS, hcts, hwS⟩ := hpstop
              rw [hrem_e'] at hcts
              obtain ⟨he0, -⟩ := List.cons.inj hcts
              exact absurd he0.symm (wordChar_ne_rparen hwS)
        · rename_i hne
          exact absurd rfl (hne r1)
  -- term many0 level
  · intro m i rem ps o r hp hc
    cases m with
    | zero => exact Option.noConfusion hc
    | succ m0 =>
    unfold termManyP at hp
    unfold canonTermMany at hc
    cases htag : tagNoCase "AND".toList i with
    | ok r1 u =>
      rw [htag] at hp
      dsimp only at hp
      rcases and_tag_ok_cases htag with ⟨hci, hr1⟩ | ⟨hstk, hciF⟩
      · rw [if_pos hci, drop_length_takeWhile, ← hr1] at hc
        cases hfac : factorP n' r1 with
        | ok r2 v2 =>
          rw [hfac] at hp
          dsimp only at hp
          by_cases hg : r2.length = i.length
          · rw [if_pos hg] at hp
            exact PRes.noConfusion hp
          · rw [if_neg hg] at hp
            cases hrec : termManyP n' r2 with
            | ok r3 ps' =>
              rw [hrec] at hp
              dsimp only at hp
              obtain ⟨hrem, hps⟩ := PRes.ok.inj hp
              cases hcf : canonFactor m0 r1 with
              | none =>
                rw [hcf] at hc
                exact Option.noConfusion hc
              | some p =>
                obtain ⟨o1, rc⟩ := p
                rw [hcf] at hc
                dsimp only at hc
                rcases ihF m0 r1 r2 v2 o1 rc hfac hcf with ⟨ho1, hrc⟩ | hbad
                · cases hcr : canonTermMany m0 rc with
                  | none =>
                    rw [hcr] at hc
                    exact Option.noConfusion hc
                  | some p2 =>
                    obtain ⟨o2, r2c⟩ := p2
                    rw [hcr] at hc
                    dsimp only at hc
                    simp only [Option.some.injEq, Prod.mk.injEq] at hc
                    rw [hrc] at hcr
                    rcases ihTM m0 r2 r3 ps' o2 r2c hrec hcr with
                      ⟨ho2, hr2c⟩ | hst | hts
                    · left
                      constructor
                      · rw [← hc.1, ho1, ho2, ← hps]
                        simp [renderTail]
                      · rw [← hc.2, hr2c, hrem]
                    · right; left
                      rw [← hc.2]
                      exact hst
                    · right; right
                      rw [← hrem]
                      exact hts
                · have hstop := termManyP_stop (by
                    obtain ⟨cB, tB, hctB, hwB, hidB⟩ := hbad
                    rw [hctB]
                    exact tagNoCase_AND_err
                      (ciChar_upper_false_of_not_idchar (by decide)
                        (by decide) hidB)) hrec
                  right; right
                  rw [← hrem, hstop.1]
                  exact TStop_of_BadHead hbad
            | err =>
              rw [hrec] at hp
              dsimp only at hp
              exact PRes.noConfusion hp
            | incomplete =>
              rw [hrec] at hp
              dsimp only at hp
              exact PRes.noConfusion hp
            | fuelOut =>
              rw [hrec] at hp
              dsimp only at hp
              exact PRes.noConfusion hp
        | err =>
          rw [hfac] at hp
          dsimp only at hp
          obtain ⟨hrem, hps⟩ := PRes.ok.inj hp
          right; right
          rw [← hrem]
          exact TStop_of_ciEq_AND hci
        | incomplete =>
          rw [hfac] at hp
          dsimp only at hp
          exact PRes.noConfusion hp
        | fuelOut =>
          rw [hfac] at hp
          dsimp only at hp
          exact PRes.noConfusion hp
      · rw [if_neg (by rw [hciF]; simp)] at hc
        simp only [Option.some.injEq, Prod.mk.injEq] at hc
        right; left
        rw [← hc.2]
        exact hstk
    | err =>
      rw [htag] at hp
      dsimp only at hp
      obtain ⟨hrem, hps⟩ := PRes.ok.inj hp
      by_cases hci : ciEqList (i.takeWhile wordChar) "AND".toList = true
      · rw [(and_tag_of_ciEq hci).1] at htag
        exact PRes.noConfusion htag
      · rw [if_neg hci] at hc
        simp only [Option.some.injEq, Prod.mk.injEq] at hc
        left
        constructor
        · rw [← hc.1, ← hps]
          rfl
        · rw [← hc.2]
          exact hrem
    | incomplete =>
      rw [htag] at hp
      dsimp only at hp
      exact PRes.noConfusion hp
    | fuelOut =>
      rw [htag] at hp
      dsimp only at hp
      exact PRes.noConfusion hp
  -- term level
  · intro m i rem v o r hp hc
    cases m with
    | zero => exact Option.noConfusion hc
    | succ m0 =>
    unfold termP at hp
    unfold canonTerm at hc
    obtain ⟨rem_f, initial, hfac, hp2⟩ := PRes.bind_ok hp
    obtain ⟨rem2, psr, hmany, hp3⟩ := PRes.bind_ok hp2
    obtain ⟨hrem, hv⟩ := PRes.ok.inj hp3
    cases hcf : canonFactor m0 i with
    | none =>
      rw [hcf] at hc
      exact Option.noConfusion hc
    | some p =>
      obtain ⟨o1, rc⟩ := p
      rw [hcf] at hc
      dsimp only at hc
      rcases ihF m0 i rem_f initial o1 rc hfac hcf with ⟨ho1, hrc⟩ | hbad
      · cases hcr : canonTermMany m0 rc with
        | none =>
          rw [hcr] at hc
          exact Option.noConfusion hc
        | some p2 =>
          obtain ⟨o2, r2c⟩ := p2
          rw [hcr] at hc
          dsimp only at hc
          simp only [Option.some.injEq, Prod.mk.injEq] at hc
          rw [hrc] at hcr
          rcases ihTM m0 rem_f rem2 psr o2 r2c hmany hcr with
            ⟨ho2, hr2c⟩ | hst | hts
          · left
            constructor
            · rw [← hc.1, ho1, ho2, ← hv, render_fold]
            · rw [← hc.2, hr2c, hrem]
          · right; left
            rw [← hc.2]
            exact hst
          · right; right
            rw [← hrem]
            exact hts
      · have hstop := termManyP_stop (by
          obtain ⟨cB, tB, hctB, hwB, hidB⟩ := hbad
          rw [hctB]
          exact tagNoCase_AND_err (ciChar_upper_false_of_not_idchar
            (by decide) (by decide) hidB)) hmany
        right; right
        rw [← hrem, hstop.1]
        exact TStop_of_BadHead hbad
  -- expr many0 level
  · intro m i rem ps o r hp hc
    cases m with
    | zero => exact Option.noConfusion hc
    | succ m0 =>
    unfold exprManyP at hp
    unfold canonExprMany at hc
    cases htag : tagNoCase "OR".toList i with
    | ok r1 u =>
      rw [htag] at hp
      dsimp only at hp
      rcases or_tag_ok_cases htag with ⟨hci, hr1⟩ | ⟨hstk, hciF⟩
      · rw [if_pos hci, drop_length_takeWhile, ← hr1] at hc
        cases hfac : termP n' r1 with
        | ok r2 v2 =>
          rw [hfac] at hp
          dsimp only at hp
          by_cases hg : r2.length = i.length
          · rw [if_pos hg] at hp
            exact PRes.noConfusion hp
          · rw [if_neg hg] at hp
            cases hrec : exprManyP n' r2 with
            | ok r3 ps' =>
              rw [hrec] at hp
              dsimp only at hp
              obtain ⟨hrem, hps⟩ := PRes.ok.inj hp
              cases hcf : canonTerm m0 r1 with
              | none =>
                rw [hcf] at hc
                exact Option.noConfusion hc
              | some p =>
                obtain ⟨o1, rc⟩ := p
                rw [hcf] at hc
                dsimp only at hc
                cases hcr : canonExprMany m0 rc with
                | none =>
                  rw [hcr] at hc
                  exact Option.noConfusion hc
                | some p2 =>
                  obtain ⟨o2, r2c⟩ := p2
                  rw [hcr] at hc
                  dsimp only at hc
                  simp only [Option.some.injEq, Prod.mk.injEq] at hc
                  rcases ihT m0 r1 r2 v2 o1 rc hfac hcf with
                    ⟨ho1, hrc⟩ | hstT | htsT
                  · rw [hrc] at hcr
                    rcases ihEM m0 r2 r3 ps' o2 r2c hrec hcr with
                      ⟨ho2, hr2c⟩ | hst | hpst
                    · left
                      constructor
                      · rw [← hc.1, ho1, ho2, ← hps]
                        simp [renderTail]
                      · rw [← hc.2, hr2c, hrem]
                    · right; left
                      rw [← hc.2]
                      exact hst
                    · right; right
                      rw [← hrem]
                      exact hpst
                  · have hempty := canonExprMany_stuck hstT.2 hcr
                    right; left
                    rw [← hc.2, hempty.2]
                    exact hstT
                  · have hstop := exprManyP_stop (by
                      obtain ⟨cT, tT, hctT, hwT, hOT⟩ := htsT
                      rw [hctT]
                      exact tagNoCase_OR_err hOT) hrec
                    right; right
                    rw [← hrem, hstop.1]
                    exact PStop_of_TStop htsT
            | err =>
              rw [hrec] at hp
              dsimp only at hp
              exact PRes.noConfusion hp
            | incomplete =>
              rw [hrec] at hp
              dsimp only at hp
              exact PRes.noConfusion hp
            | fuelOut =>
              rw [hrec] at hp
              dsimp only at hp
              exact PRes.noConfusion hp
        | err =>
          rw [hfac] at hp
          dsimp only at hp
          obtain ⟨hrem, hps⟩ := PRes.ok.inj hp
          right; right
          rw [← hrem]
          exact PStop_of_ciEq_OR hci
        | incomplete =>
          rw [hfac] at hp
          dsimp only at hp
          exact PRes.noConfusion hp
        | fuelOut =>
          rw [hfac] at hp
          dsimp only at hp
          exact PRes.noConfusion hp
      · rw [if_neg (by rw [hciF]; simp)] at hc
        simp only [Option.some.injEq, Prod.mk.injEq] at hc
        right; left
        rw [← hc.2]
        exact hstk
    | err =>
      rw [htag] at hp
      dsimp only at hp
      obtain ⟨hrem, hps⟩ := PRes.ok.inj hp
      by_cases hci : ciEqList (i.takeWhile wordChar) "OR".toList = true
      · rw [(or_tag_of_ciEq hci).1] at htag
        exact PRes.noConfusion htag
      · rw [if_neg hci] at hc
        simp only [Option.some.injEq, Prod.mk.injEq] at hc
        left
        constructor
        · rw [← hc.1, ← hps]
          rfl
        · rw [← hc.2]
          exact hrem
    | incomplete =>
      rw [htag] at hp
      dsimp only at hp
      exact PRes.noConfusion hp
    | fuelOut =>
      rw [htag] at hp
      dsimp only at hp
      exact PRes.noConfusion hp
  -- expr level
  · intro m i rem v o r hp hc
    cases m with
    | zero => exact Option.noConfusion hc
    | succ m0 =>
    unfold exprP at hp
    unfold canonExpr at hc
    obtain ⟨rem_t, initial, hfac, hp2⟩ := PRes.bind_ok hp
    obtain ⟨rem2, psr, hmany, hp3⟩ := PRes.bind_ok hp2
    obtain ⟨hrem, hv⟩ := PRes.ok.inj hp3
    cases hcf : canonTerm m0 i with
    | none =>
      rw [hcf] at hc
      exact Option.noConfusion hc
    | some p =>
      obtain ⟨o1, rc⟩ := p
      rw [hcf] at hc
      dsimp only at hc
      cases hcr : canonExprMany m0 rc with
      | none =>
        rw [hcr] at hc
        exact Option.noConfusion hc
      | some p2 =>
        obtain ⟨o2, r2c⟩ := p2
        rw [hcr] at hc
        dsimp only at hc
        simp only [Option.some.injEq, Prod.mk.injEq] at hc
        rcases ihT m0 i rem_t initial o1 rc hfac hcf with
          ⟨ho1, hrc⟩ | hstT | htsT
        · rw [hrc] at hcr
          rcases ihEM m0 rem_t rem2 psr o2 r2c hmany hcr with
            ⟨ho2, hr2c⟩ | hst | hpst
          · left
            constructor
            · rw [← hc.1, ho1, ho2, ← hv, render_fold]
            · rw [← hc.2, hr2c, hrem]
          · right; left
            rw [← hc.2]
            exact hst
          · right; right
            rw [← hrem]
            exact hpst
        · have hempty := canonExprMany_stuck hstT.2 hcr
          right; left
          rw [← hc.2, hempty.2]
          exact hstT
        · have hstop := exprManyP_stop (by
            obtain ⟨cT, tT, hctT, hwT, hOT⟩ := htsT
            rw [hctT]
            exact tagNoCase_OR_err hOT) hmany
          right; right
          rw [← hrem, hstop.1]
          exact PStop_of_TStop htsT

/-- Top-level consequence of the lockstep invariant: whenever
`Expression::parse` accepts an input and the input has a canonical form,
the canonical form is exactly the rendering of the parsed tree. -/
theorem parse_canon_render {e : List Char} {t : Expression} {c : List Char}
    (hp : Expression.parse e = .ok t) (hc : canon e = some c) :
    c = render t := by
  unfold Expression.parse at hp
  unfold canon at hc
  cases hx : exprP (4 * e.length + 8) e with
  | ok rem v =>
    rw [hx] at hp
    dsimp only at hp
    by_cases hrem : rem = []
    · rw [if_pos hrem] at hp
      have hv : v = t := ParseOutcome.ok.inj hp
      cases hy : canonExpr (4 * e.length + 8) e with
      | none =>
        rw [hy] at hc
        exact Option.noConfusion hc
      | some p =>
        obtain ⟨oc, rc⟩ := p
        rw [hy] at hc
        cases rc with
        | cons c0 t0 =>
          dsimp only at hc
          exact Option.noConfusion hc
        | nil =>
          dsimp only at hc
          have hoc : oc = c := Option.some.inj hc
          rw [hrem] at hx
          rcases (lockstep (4 * e.length + 8)).2.2.2.2
            (4 * e.length + 8) e [] v oc [] hx hy with ⟨ho, -⟩ | hst | hpst
          · rw [← hoc, ho, hv]
          · exact absurd rfl hst.1
          · obtain ⟨c1, t1, hct, -⟩ := hpst
            exact List.noConfusion hct
    · rw [if_neg hrem] at hp
      exact ParseOutcome.noConfusion hp
  | err =>
    rw [hx] at hp
    dsimp only at hp
    exact ParseOutcome.noConfusion hp
  | incomplete =>
    rw [hx] at hp
    dsimp only at hp
    exact ParseOutcome.noConfusion hp
  | fuelOut =>
    rw [hx] at hp
    dsimp only at hp
    exact ParseOutcome.noConfusion hp

end Spdx

namespace Spdx

/-! ## Claim theorems -/

/-- C1, counterexample: the claim says that for every input accepted by the
parser, rendering the AST reproduces the input up to a canonicalization that
only uppercases operator keywords and otherwise preserves the text exactly.
The input `" MIT"` is accepted, contains no operator keyword (so its
canonicalization is itself), yet renders as `"MIT"`: rendering drops the
leading whitespace. -/
theorem c1_roundtrip_counterexample :
    Expression.parse " MIT".toList =
      .ok (.Simple ⟨"MIT".toList, none, false⟩) ∧
    canonicalizeSpec " MIT".toList = " MIT".toList ∧
    render (.Simple ⟨"MIT".toList, none, false⟩) ≠ " MIT".toList := by
  refine ⟨rfl, rfl, ?_⟩
  decide

/-- C2: the parser realizes the precedence order `WITH` tighter than `AND`
tighter than `OR`: `A AND B OR C` parses as `Or(And(A,B),C)`,
`A OR B AND C` as `Or(A,And(B,C))`, and `A AND B WITH E` as
`And(A,With(B,E))`. -/
theorem c2_precedence :
    Expression.parse "A AND B OR C".toList =
      .ok (.Or (.And (.Simple ⟨"A".toList, none, false⟩)
          (.Simple ⟨"B".toList, none, false⟩))
        (.Simple ⟨"C".toList, none, false⟩)) ∧
    Expression.parse "A OR B AND C".toList =
      .ok (.Or (.Simple ⟨"A".toList, none, false⟩)
        (.And (.Simple ⟨"B".toList, none, false⟩)
          (.Simple ⟨"C".toList, none, false⟩))) ∧
    Expression.parse "A AND B WITH E".toList =
      .ok (.And (.Simple ⟨"A".toList, none, false⟩)
        (.With ⟨⟨"B".toList, none, false⟩, "E".toList⟩)) :=
  ⟨rfl, rfl, rfl⟩

/-- C3: `AND` and `OR` are left-associative — `A AND B AND C` parses to the
left-leaning tree (and analogously for `OR`), and `fold_exprs` folds each
successive `(operator, operand)` pair onto the accumulated left operand, so
appending one more pair wraps the previous result as the new left child. -/
theorem c3_left_associativity :
    Expression.parse "A AND B AND C".toList =
      .ok (.And (.And (.Simple ⟨"A".toList, none, false⟩)
          (.Simple ⟨"B".toList, none, false⟩))
        (.Simple ⟨"C".toList, none, false⟩)) ∧
    Expression.parse "A OR B OR C".toList =
      .ok (.Or (.Or (.Simple ⟨"A".toList, none, false⟩)
          (.Simple ⟨"B".toList, none, false⟩))
        (.Simple ⟨"C".toList, none, false⟩)) ∧
    ∀ (initial : Expression) (remainder : List (Oper × Expression))
      (e : Expression),
      fold_exprs initial (remainder ++ [(Oper.and, e)]) =
        Expression.And (fold_exprs initial remainder) e ∧
      fold_exprs initial (remainder ++ [(Oper.or, e)]) =
        Expression.Or (fold_exprs initial remainder) e := by
  refine ⟨rfl, rfl, fun initial remainder e => ⟨?_, ?_⟩⟩ <;>
    simp [fold_exprs, List.foldl_append]

/-- C4, code bug: the claim (and the spec) say `SPDXExpression::parse` never
causes an unrecoverable fault and returns a `Parse` error on bad input,
including the empty string.  The code calls
`parse::spdx_expression(expression).unwrap()`; on `""` the streaming
`char('(')` yields `Err::Incomplete`, which short-circuits every `alt`, so
the `unwrap()` panics. -/
theorem c4_no_panic_code_bug :
    SPDXExpression.parse "".toList = .panicked ∧
    spdx_expression (4 * ("".toList).length + 8) "".toList =
      .incomplete :=
  ⟨rfl, rfl⟩

/-- C5, code bug: the claim says every failure of `Expression::parse` returns
`ParseError::Parse` with the full original input.  Success does require full
consumption, whitespace is skipped, and ordinary failures do carry the whole
input — but on `"DocumentRef-Doc"` the streaming `char(':')` hits end of
input, `expr` returns `Err::Incomplete`, and nom's `finish()` panics instead
of returning an error. -/
theorem c5_error_reporting_code_bug :
    Expression.parse "DocumentRef-Doc".toList = .panicked ∧
    Expression.parse "MIT X".toList = .parseError "MIT X".toList ∧
    Expression.parse "  MIT  ".toList =
      .ok (.Simple ⟨"MIT".toList, none, false⟩) :=
  ⟨rfl, rfl, rfl⟩

/-- C6, counterexample: the claim says the exception operand of `WITH` may
not carry a `LicenseRef-` prefix (such inputs being syntax errors), yet
`A WITH LicenseRef-E` is accepted — `idstring` happily consumes the whole
prefixed text as the exception identifier. -/
theorem c6_with_operands_counterexample :
    Expression.parse "A WITH LicenseRef-E".toList =
      .ok (.With ⟨⟨"A".toList, none, false⟩, "LicenseRef-E".toList⟩) :=
  rfl

/-- C6, amended: the license operand of `WITH` must be a single simple
identifier (`(A AND B) WITH E` is a parse error) and the exception may not
carry a trailing `+` (`A WITH E+` is a parse error); a `LicenseRef-` prefix
on the exception is not rejected, it is simply absorbed into the exception
identifier. -/
theorem c6_with_operands_amended :
    Expression.parse "(A AND B) WITH E".toList =
      .parseError "(A AND B) WITH E".toList ∧
    Expression.parse "A WITH E+".toList =
      .parseError "A WITH E+".toList ∧
    Expression.parse "A WITH LicenseRef-E".toList =
      .ok (.With ⟨⟨"A".toList, none, false⟩, "LicenseRef-E".toList⟩) :=
  ⟨rfl, rfl, rfl⟩

/-- C7, counterexample: the claim says every input in which `AND`/`OR`/`WITH`
lacks adjacent whitespace (for example `MIT ANDISC`) is rejected, but
`MIT ANDISC` is accepted and parses as `And(MIT, ISC)` — `term` matches the
`AND` tag with no following whitespace requirement. -/
theorem c7_operator_whitespace_counterexample :
    Expression.parse "MIT ANDISC".toList =
      .ok (.And (.Simple ⟨"MIT".toList, none, false⟩)
        (.Simple ⟨"ISC".toList, none, false⟩)) :=
  rfl

/-- C7, amended: whitespace is mandatory on both sides of `WITH`
(`multispace1`), but not around `AND`/`OR`: `MIT ANDISC` parses as
`And(MIT, ISC)` and `MIT OR(ISC)` as `Or(MIT, Parens(ISC))`, while
`MIT WITHISC` (no whitespace after `WITH`) and `MIT+WITH E` (none before)
are rejected; no whitespace is required immediately inside parentheses. -/
theorem c7_operator_whitespace_amended :
    Expression.parse "MIT ANDISC".toList =
      .ok (.And (.Simple ⟨"MIT".toList, none, false⟩)
        (.Simple ⟨"ISC".toList, none, false⟩)) ∧
    Expression.parse "MIT OR(ISC)".toList =
      .ok (.Or (.Simple ⟨"MIT".toList, none, false⟩)
        (.Parens (.Simple ⟨"ISC".toList, none, false⟩))) ∧
    Expression.parse "MIT WITHISC".toList =
      .parseError "MIT WITHISC".toList ∧
    Expression.parse "MIT+WITH E".toList =
      .parseError "MIT+WITH E".toList ∧
    Expression.parse "(MIT)".toList =
      .ok (.Parens (.Simple ⟨"MIT".toList, none, false⟩)) :=
  ⟨rfl, rfl, rfl, rfl, rfl⟩

/-- C8: composite reference syntax parses into the documented leaf fields —
`DocumentRef-Doc:LicenseRef-Foo` yields identifier `Foo`, document reference
`Doc` and the `license_ref` flag, while `GPL-2.0+` keeps the `+` verbatim in
a plain identifier. -/
theorem c8_ref_syntax :
    Expression.parse "DocumentRef-Doc:LicenseRef-Foo".toList =
      .ok (.Simple ⟨"Foo".toList, some "Doc".toList, true⟩) ∧
    Expression.parse "GPL-2.0+".toList =
      .ok (.Simple ⟨"GPL-2.0+".toList, none, false⟩) :=
  ⟨rfl, rfl⟩

/-- C9: on the spec's example, `SPDXExpression::parse` succeeds and
`licenses` returns exactly the sorted, deduplicated identifier and exception
tokens, with parentheses stripped and the operator keywords removed. -/
theorem c9_licenses_extraction :
    SPDXExpression.parse
      "(MIT OR Apache-2.0 AND (GPL-2.0-only WITH Classpath-exception-2.0 OR ISC))".toList =
      .ok
        "(MIT OR Apache-2.0 AND (GPL-2.0-only WITH Classpath-exception-2.0 OR ISC))".toList
        (.Compound (.Simple ⟨"MIT".toList, none, false⟩) .Or
          (.Compound (.Simple ⟨"Apache-2.0".toList, none, false⟩) .And
            (.Compound
              (.With ⟨⟨"GPL-2.0-only".toList, none, false⟩,
                "Classpath-exception-2.0".toList⟩) .Or
              (.Simple ⟨"ISC".toList, none, false⟩)))) ∧
    licensesText
      "(MIT OR Apache-2.0 AND (GPL-2.0-only WITH Classpath-exception-2.0 OR ISC))".toList =
      ["Apache-2.0".toList, "Classpath-exception-2.0".toList,
        "GPL-2.0-only".toList, "ISC".toList, "MIT".toList] :=
  ⟨rfl, rfl⟩

/-- C10, counterexample: the claim says `licenses` applied to the rendered
text of a parsed expression always matches `licenses` of the original input.
For the accepted input `"MIT and ISC"`, the rendered text is
`"MIT AND ISC"`: `licenses` on the original keeps the lowercase operator
word `"and"` (the filter only removes the uppercase tokens), while on the
rendered text it removes `"AND"`. -/
theorem c10_extraction_idempotence_counterexample :
    Expression.parse "MIT and ISC".toList =
      .ok (.And (.Simple ⟨"MIT".toList, none, false⟩)
        (.Simple ⟨"ISC".toList, none, false⟩)) ∧
    render (.And (.Simple ⟨"MIT".toList, none, false⟩)
        (.Simple ⟨"ISC".toList, none, false⟩)) = "MIT AND ISC".toList ∧
    licensesText "MIT AND ISC".toList = ["ISC".toList, "MIT".toList] ∧
    licensesText "MIT and ISC".toList =
      ["ISC".toList, "MIT".toList, "and".toList] ∧
    ("ISC".toList ≠ "and".toList) := by
  refine ⟨rfl, rfl, rfl, rfl, ?_⟩
  decide

/-- C1, amended: rendering does reproduce accepted input up to
canonicalization, but the canonicalization must normalize whitespace as
well as operator keyword case: for every input that the parser accepts
and that possesses a canonical form (operator keywords uppercased and
whole words, tokens separated by single spaces, parentheses attached,
`WITH` flanked by whitespace), the rendering of the parsed tree is
exactly that canonical form, redundant parentheses included. -/
theorem c1_roundtrip_amended (e : List Char) (t : Expression) (c : List Char)
    (hp : Expression.parse e = .ok t) (hc : canon e = some c) :
    c = render t :=
  parse_canon_render hp hc

/-- Witness for the amended C1 at a concrete input with lowercase `or`,
padding whitespace and parentheses. -/
theorem c1_roundtrip_amended_witness :
    Expression.parse " (MIT or ISC) AND Apache-2.0 ".toList =
      .ok (.And (.Parens (.Or (.Simple ⟨"MIT".toList, none, false⟩)
        (.Simple ⟨"ISC".toList, none, false⟩)))
        (.Simple ⟨"Apache-2.0".toList, none, false⟩)) ∧
    canon " (MIT or ISC) AND Apache-2.0 ".toList =
      some "(MIT OR ISC) AND Apache-2.0".toList ∧
    "(MIT OR ISC) AND Apache-2.0".toList =
      render (.And (.Parens (.Or (.Simple ⟨"MIT".toList, none, false⟩)
        (.Simple ⟨"ISC".toList, none, false⟩)))
        (.Simple ⟨"Apache-2.0".toList, none, false⟩)) :=
  ⟨rfl, rfl, c1_roundtrip_amended " (MIT or ISC) AND Apache-2.0 ".toList _ _ rfl rfl⟩

/-- C10, amended: extraction is idempotent relative to the canonical
text, not the raw input: for every accepted input with a canonical form,
`licenses` of the rendered tree equals `licenses` of that canonical form.
(On the raw input the property fails: lowercase keywords such as `and`
are not removed, as the counterexample records.) -/
theorem c10_extraction_idempotence_amended (e : List Char) (t : Expression)
    (c : List Char) (hp : Expression.parse e = .ok t)
    (hc : canon e = some c) :
    licensesText (render t) = licensesText c := by
  rw [parse_canon_render hp hc]

/-- Witness for the amended C10 at the counterexample's own input. -/
theorem c10_extraction_idempotence_amended_witness :
    Expression.parse "MIT and ISC".toList =
      .ok (.And (.Simple ⟨"MIT".toList, none, false⟩)
        (.Simple ⟨"ISC".toList, none, false⟩)) ∧
    canon "MIT and ISC".toList = some "MIT AND ISC".toList ∧
    licensesText (render (.And (.Simple ⟨"MIT".toList, none, false⟩)
        (.Simple ⟨"ISC".toList, none, false⟩))) =
      licensesText "MIT AND ISC".toList :=
  ⟨rfl, rfl, c10_extraction_idempotence_amended "MIT and ISC".toList _ _ rfl rfl⟩

end Spdx
